import Mathlib

/-!
Verification of the NodeModulesCleaner core — the glob engine
(src/lib/glob.ts), the directory scanner (src/core/scanner.ts), the caching
size calculator (src/core/size-calculator.ts) and the duplicate analyzer
(src/core/analyzer.ts) — against its natural-language specification.

Embedding conventions:

* JavaScript strings are manipulated through their character lists
  (`List Char`); every string-transforming function of the source is
  translated to an executable function on character lists so that concrete
  runs reduce inside the kernel.
* Filesystem trees are an inductive type; `fs.readdir`, `fs.stat`,
  `fs.access` failures are explicit flags on the nodes.
* Paths are segment lists.  The scanner and size calculator only ever form
  paths by path.join(parent, entryName) starting from the scan root, and
  entry names are slash-free, so POSIX path.normalize is the identity on the
  rendered strings and a path is faithfully represented by its segments.
  Rendered strings (root string + "/" + segments) are used exactly where the
  source hands a path string to the glob engine.
* The shared mutable size cache and the results/visited arrays become
  explicitly threaded state; Date.now() becomes an explicit clock argument
  (each source function reads the clock during one call; the claims never
  depend on sub-call clock drift).
* JavaScript number arithmetic on byte counts stays in Nat (exact below
  2^53); the analyzer's average, the one genuinely fractional computation,
  is modelled in ℚ, exactly matching the source formula
  totalSize - totalSize / count.
-/

/-! ## Character-list string primitives (JavaScript semantics) -/

/-- Does the pattern occur at the head of the list. -/
def listStartsWith : List Char → List Char → Bool
  | _, [] => true
  | [], _ :: _ => false
  | c :: s, p :: ps => c = p && listStartsWith s ps

/-- JavaScript String.prototype.replace with a /global literal/ pattern and a
literal replacement (every replacement string fed to a global replace in the
source is free of the dollar substitution forms): scans left to right,
replacing non-overlapping occurrences.  The fuel argument only serves
structural termination; every step consumes at least one input character, so
the wrapper's choice of fuel is always enough. -/
def jsReplaceAllF (pat rep : List Char) : Nat → List Char → List Char
  | 0, s => s
  | _ + 1, [] => []
  | fuel + 1, c :: rest =>
      if pat ≠ [] ∧ listStartsWith (c :: rest) pat then
        rep ++ jsReplaceAllF pat rep fuel ((c :: rest).drop pat.length)
      else
        c :: jsReplaceAllF pat rep fuel rest

def jsReplaceAll (pat rep s : List Char) : List Char :=
  jsReplaceAllF pat rep s.length s

/-- Dollar substitution of JavaScript String.prototype.replace replacement
strings for a string (group-free) pattern: interprets doubled dollar, dollar
ampersand (the match), dollar backquote (the part before the match) and
dollar quote (the part after the match); anything else is literal. -/
def jsDollarSubst (matched pre post : List Char) : List Char → List Char
  | [] => []
  | '$' :: '$' :: rest => '$' :: jsDollarSubst matched pre post rest
  | '$' :: '&' :: rest => matched ++ jsDollarSubst matched pre post rest
  | '$' :: '`' :: rest => pre ++ jsDollarSubst matched pre post rest
  | '$' :: '\'' :: rest => post ++ jsDollarSubst matched pre post rest
  | c :: rest => c :: jsDollarSubst matched pre post rest

/-- Split a character list at every occurrence of the given separator
character (JavaScript String.prototype.split with a one-character string). -/
def listSplitOn (sep : Char) : List Char → List (List Char)
  | [] => [[]]
  | c :: rest =>
      let r := listSplitOn sep rest
      if c = sep then [] :: r
      else match r with
        | [] => [[c]]
        | h :: t => (c :: h) :: t

/-- Concatenate with a separator character between elements. -/
def listJoinSep (sep : Char) : List (List Char) → List Char
  | [] => []
  | [x] => x
  | x :: y :: rest => x ++ sep :: listJoinSep sep (y :: rest)

/-- Decimal digits of a natural number (String(n) for a natural JS number). -/
def natDigitsAux : Nat → Nat → List Char
  | 0, _ => []
  | _ + 1, 0 => []
  | fuel + 1, n + 1 =>
      natDigitsAux fuel ((n + 1) / 10) ++ [Char.ofNat (48 + (n + 1) % 10)]

def natDigits (n : Nat) : List Char :=
  if n = 0 then ['0'] else natDigitsAux (n + 1) n

/-- parseInt on a nonempty digit run. -/
def digitsToNat (ds : List Char) : Nat :=
  ds.foldl (fun acc c => acc * 10 + (c.toNat - 48)) 0

/-! ## A JavaScript RegExp fragment

`patternToRegex` builds a regular-expression source string and matches with
RegExp.prototype.test.  The emitted sources only ever use: literal
characters, backslash escapes, the dot, character classes (used as the
negated class excluding the slash), groups, alternation, the star
quantifier, and the caret/dollar assertions.  The syntax tree, parser and
backtracking matcher below implement exactly that fragment with JavaScript
semantics (test = unanchored search; caret/dollar are begin/end assertions;
the dot excludes line terminators). -/

inductive RE where
  | emptyS
  | lit (c : Char)
  | anyc
  | cls (neg : Bool) (cs : List Char)
  | caret
  | dollar
  | seq (a b : RE)
  | alt (a b : RE)
  | star (a : RE)
deriving Repr

/-- Characters a bare dot does not match (JS line terminators). -/
def jsLineTerminators : List Char := ['\n', '\r', Char.ofNat 0x2028, Char.ofNat 0x2029]

mutual

/-- Parse the body of a character class up to the closing bracket. -/
def parseClsBody : Nat → List Char → Option (List Char × List Char)
  | 0, _ => none
  | _ + 1, ']' :: rest => some ([], rest)
  | fuel + 1, '\\' :: c :: rest =>
      match parseClsBody fuel rest with
      | some (cs, r) => some (c :: cs, r)
      | none => none
  | fuel + 1, c :: rest =>
      match parseClsBody fuel rest with
      | some (cs, r) => some (c :: cs, r)
      | none => none
  | _ + 1, [] => none

/-- Parse one atom (escape, group, class, dot, assertion or literal). -/
def parseAtomR : Nat → List Char → Option (RE × List Char)
  | 0, _ => none
  | _ + 1, '\\' :: c :: rest => some (.lit c, rest)
  | _ + 1, '\\' :: [] => none
  | fuel + 1, '(' :: rest =>
      match parseAltR fuel rest with
      | some (r, ')' :: rest2) => some (r, rest2)
      | _ => none
  | fuel + 1, '[' :: '^' :: rest =>
      match parseClsBody fuel rest with
      | some (cs, r) => some (.cls true cs, r)
      | none => none
  | fuel + 1, '[' :: rest =>
      match parseClsBody fuel rest with
      | some (cs, r) => some (.cls false cs, r)
      | none => none
  | _ + 1, '.' :: rest => some (.anyc, rest)
  | _ + 1, '^' :: rest => some (.caret, rest)
  | _ + 1, '$' :: rest => some (.dollar, rest)
  | _ + 1, c :: rest =>
      if c = ')' ∨ c = '|' ∨ c = '*' ∨ c = '+' ∨ c = '?' then none
      else some (.lit c, rest)
  | _ + 1, [] => none

/-- Parse a (possibly empty) concatenation, attaching postfix stars. -/
def parseSeqR : Nat → List Char → Option (RE × List Char)
  | 0, _ => none
  | _ + 1, [] => some (.emptyS, [])
  | fuel + 1, c :: rest =>
      if c = ')' ∨ c = '|' then some (.emptyS, c :: rest)
      else
        match parseAtomR fuel (c :: rest) with
        | none => none
        | some (a, rest2) =>
            let (a2, rest3) :=
              match rest2 with
              | '*' :: r => (RE.star a, r)
              | _ => (a, rest2)
            match parseSeqR fuel rest3 with
            | some (b, rest4) => some (.seq a2 b, rest4)
            | none => none

/-- Parse an alternation. -/
def parseAltR : Nat → List Char → Option (RE × List Char)
  | 0, _ => none
  | fuel + 1, s =>
      match parseSeqR fuel s with
      | none => none
      | some (a, '|' :: rest) =>
          match parseAltR fuel rest with
          | some (b, rest2) => some (.alt a b, rest2)
          | none => none
      | some (a, rest) => some (a, rest)

end

/-- Parse a full regular-expression source string. -/
def parseRegex (src : List Char) : Option RE :=
  match parseAltR (2 * src.length + 2) src with
  | some (r, []) => some r
  | _ => none

/-- Saturate a set of positions under one more application of a step
function; used to run the star quantifier to its backtracking closure. -/
def starSaturate (step : Nat → List Nat) : Nat → List Nat → List Nat
  | 0, acc => acc
  | fuel + 1, acc =>
      let next := ((acc.flatMap step).filter (fun j => ¬ j ∈ acc)).dedup
      if next = [] then acc else starSaturate step fuel (acc ++ next)

/-- All positions at which a match of the expression starting at the given
position can end (backtracking semantics: the full list of alternatives). -/
def reMatch (s : List Char) : RE → Nat → List Nat
  | .emptyS, i => [i]
  | .lit c, i =>
      match s.get? i with
      | some c2 => if c2 = c then [i + 1] else []
      | none => []
  | .anyc, i =>
      match s.get? i with
      | some c2 => if c2 ∈ jsLineTerminators then [] else [i + 1]
      | none => []
  | .cls neg cs, i =>
      match s.get? i with
      | some c2 => if (c2 ∈ cs) ≠ neg then [i + 1] else []
      | none => []
  | .caret, i => if i = 0 then [i] else []
  | .dollar, i => if i = s.length then [i] else []
  | .seq a b, i => ((reMatch s a i).flatMap (reMatch s b)).dedup
  | .alt a b, i => (reMatch s a i ++ reMatch s b i).dedup
  | .star a, i => starSaturate (reMatch s a) (s.length + 1) [i]

/-- RegExp.prototype.test: search for a match from every start position. -/
def reTest (re : RE) (s : List Char) : Bool :=
  (List.range (s.length + 1)).any (fun i => reMatch s re i ≠ [])

/-- Compile-and-test for a produced regex source; the parser covers the
fragment `patternToRegex` emits (a source outside the fragment would be a
RegExp the model cannot represent and tests as false). -/
def regexTest (src : List Char) (s : List Char) : Bool :=
  match parseRegex src with
  | some re => reTest re s
  | none => false

/-! ## POSIX path normalization (path.posix.normalize) -/

/-- One segment step of path.posix.normalize's segment resolution. -/
def normStep (isAbs : Bool) (stack : List (List Char)) (seg : List Char) : List (List Char) :=
  if seg = ['.'] then stack
  else if seg = ['.', '.'] then
    if stack ≠ [] ∧ stack.getLast? ≠ some ['.', '.'] then stack.dropLast
    else if isAbs then stack else stack ++ [seg]
  else stack ++ [seg]

/-- path.posix.normalize: collapse separators, resolve dot and dot-dot
segments, keep a trailing separator. -/
def pathNormalize (p : List Char) : List Char :=
  if p = [] then ['.']
  else
    let isAbs := p.head? = some '/'
    let trailing := p.getLast? = some '/'
    let segs := (listSplitOn '/' p).filter (· ≠ [])
    let out := segs.foldl (normStep isAbs) []
    let core := listJoinSep '/' out
    if core = [] then
      if isAbs then ['/'] else if trailing then ['.', '/'] else ['.']
    else
      (if isAbs then '/' :: core else core) ++ (if trailing then ['/'] else [])

/-! ## The glob engine (src/lib/glob.ts, class Glob)

The compiled-RegExp cache of the class only memoizes `patternToRegex`, which
is a pure function of the pattern, so it is dropped from the model.  The
`options` parameter of `isMatch` is omitted: every call site in scope passes
no options (`nocase`/`dot` default off). -/

namespace Glob

/-- Substring containment test. -/
def listContainsSub (s pat : List Char) : Bool :=
  (List.range (s.length + 1)).any (fun i => listStartsWith (s.drop i) pat)

/-- Leftmost match of the brace-group regex: an opening brace, one or more
characters other than a closing brace (greedy), a closing brace.  Returns
the text before the match, the group body, and the text after. -/
def findBrace : List Char → Option (List Char × List Char × List Char)
  | [] => none
  | c :: rest =>
      if c = '{' then
        let run := rest.takeWhile (· ≠ '}')
        let after := rest.drop run.length
        if run ≠ [] ∧ after.head? = some '}' then some ([], run, after.tail)
        else (findBrace rest).map (fun x => (c :: x.1, x.2.1, x.2.2))
      else (findBrace rest).map (fun x => (c :: x.1, x.2.1, x.2.2))

/-- Glob.expandBraces with explicit fuel.  Each step removes the leftmost
brace group, splits its body on commas and recurses on every alternative
(the replacement is one String.replace call, so the dollar forms apply).
For a dollar-free pattern each step strictly decreases the number of closing
braces, so the fuel chosen by the wrapper below never runs out; on the
pathological dollar patterns where it would, the JavaScript original
recurses forever. -/
def expandBracesF : Nat → List Char → List (List Char)
  | 0, p => [p]
  | fuel + 1, p =>
      match findBrace p with
      | none => [p]
      | some (pre, inner, post) =>
          let full := '{' :: (inner ++ ['}'])
          (listSplitOn ',' inner).flatMap
            (fun o => expandBracesF fuel (pre ++ jsDollarSubst full pre post o ++ post))

/-- Number of closing braces, the termination measure of expandBraces. -/
def rbraceCount (p : List Char) : Nat := (p.filter (· = '}')).length

def expandBracesL (p : List Char) : List (List Char) :=
  expandBracesF (rbraceCount p + 1) p

/-- Glob.expandBraces on strings. -/
def expandBraces (p : String) : List String :=
  (expandBracesL p.toList).map (fun cs => ⟨cs⟩)

/-- Leftmost match of the numeric-range regex: brace, digit run, two dots,
digit run, closing brace.  The digit runs are greedy and the regex admits no
other split, so no backtracking arises. -/
def findNumericRange : List Char → Option (List Char × Nat × Nat × List Char)
  | [] => none
  | c :: rest =>
      let skip := fun () =>
        (findNumericRange rest).map (fun x => (c :: x.1, x.2.1, x.2.2.1, x.2.2.2))
      if c = '{' then
        let d1 := rest.takeWhile Char.isDigit
        if d1 = [] then skip ()
        else
          match rest.drop d1.length with
          | '.' :: '.' :: r2 =>
              let d2 := r2.takeWhile Char.isDigit
              if d2 = [] then skip ()
              else
                match r2.drop d2.length with
                | '}' :: post => some ([], digitsToNat d1, digitsToNat d2, post)
                | _ => skip ()
          | _ => skip ()
      else skip ()

/-- Leftmost match of the character-range regex (case-insensitive single
letters): brace, letter, two dots, letter, closing brace. -/
def findCharRange : List Char → Option (List Char × Char × Char × List Char)
  | '{' :: c1 :: '.' :: '.' :: c2 :: '}' :: post =>
      if c1.isAlpha ∧ c2.isAlpha then some ([], c1, c2, post)
      else
        (findCharRange (c1 :: '.' :: '.' :: c2 :: '}' :: post)).map
          (fun x => ('{' :: x.1, x.2.1, x.2.2.1, x.2.2.2))
  | [] => none
  | c :: rest =>
      (findCharRange rest).map (fun x => (c :: x.1, x.2.1, x.2.2.1, x.2.2.2))

/-- Glob.expand: a numeric range is expanded first (one occurrence, no
recursion), then a character range, and only a pattern with neither goes
through recursive brace expansion.  Matched ranges are replaced at the match
position (the leftmost match is also the first substring occurrence, which
is what String.replace rewrites; the replacement digits or letter have no
dollar forms). -/
def expand (p : String) : List String :=
  let cs := p.toList
  match findNumericRange cs with
  | some (pre, a, b, post) =>
      (List.range (b + 1 - a)).map (fun i => (⟨pre ++ natDigits (a + i) ++ post⟩ : String))
  | none =>
      match findCharRange cs with
      | some (pre, c1, c2, post) =>
          (List.range (c2.toNat + 1 - c1.toNat)).map
            (fun i => (⟨pre ++ [Char.ofNat (c1.toNat + i)] ++ post⟩ : String))
      | none => (expandBracesL cs).map (fun x => (⟨x⟩ : String))

/-- Glob.escape: the chain of global replaces of the source, in order. -/
def escapeL (s : List Char) : List Char :=
  let s := jsReplaceAll ['\\'] ['\\', '\\'] s
  let s := jsReplaceAll ['*'] ['\\', '*'] s
  let s := jsReplaceAll ['?'] ['\\', '?'] s
  let s := jsReplaceAll ['['] ['\\', '['] s
  let s := jsReplaceAll [']'] ['\\', ']'] s
  let s := jsReplaceAll ['{'] ['\\', '{'] s
  let s := jsReplaceAll ['}'] ['\\', '}'] s
  let s := jsReplaceAll ['('] ['\\', '('] s
  let s := jsReplaceAll [')'] ['\\', ')'] s
  let s := jsReplaceAll ['+'] ['\\', '+'] s
  let s := jsReplaceAll ['^'] ['\\', '^'] s
  let s := jsReplaceAll ['$'] ['\\', '$'] s
  let s := jsReplaceAll ['|'] ['\\', '|'] s
  s

def escape (s : String) : String := ⟨escapeL s.toList⟩

/-- Glob.patternToRegex: the escaping/placeholder pipeline of the source,
replayed replace by replace, producing the RegExp source string. -/
def patternToRegexL (pattern : List Char) : List Char :=
  let cleanPattern := if pattern.getLast? = some '/' then pattern.dropLast else pattern
  -- escaped characters become placeholders
  let s := jsReplaceAll ['\\', '\\'] "__ESCAPED_BACKSLASH__".toList cleanPattern
  let s := jsReplaceAll ['\\', '*'] "__ESCAPED_STAR__".toList s
  let s := jsReplaceAll ['\\', '?'] "__ESCAPED_QUESTION__".toList s
  let s := jsReplaceAll ['\\', '['] "__ESCAPED_LBRACKET__".toList s
  let s := jsReplaceAll ['\\', ']'] "__ESCAPED_RBRACKET__".toList s
  let s := jsReplaceAll ['\\', '{'] "__ESCAPED_LBRACE__".toList s
  let s := jsReplaceAll ['\\', '}'] "__ESCAPED_RBRACE__".toList s
  let s := jsReplaceAll ['\\', '('] "__ESCAPED_LPAREN__".toList s
  let s := jsReplaceAll ['\\', ')'] "__ESCAPED_RPAREN__".toList s
  -- one brace group becomes a regex alternation group (String.replace of the
  -- match by a parenthesized join, with the dollar forms of a replacement)
  let s :=
    if s.contains '{' ∧ s.contains '}' ∧ ¬ listContainsSub s "__ESCAPED_".toList then
      match findBrace s with
      | some (pre, inner, post) =>
          let full := '{' :: (inner ++ ['}'])
          let repl := '(' :: (listJoinSep '|' (listSplitOn ',' inner) ++ [')'])
          pre ++ jsDollarSubst full pre post repl ++ post
      | none => s
    else s
  -- wildcard markers
  let s := jsReplaceAll ['*', '*'] "__DOUBLE_STAR__".toList s
  let s := jsReplaceAll ['*'] "__SINGLE_STAR__".toList s
  let s := jsReplaceAll ['?'] "__QUESTION__".toList s
  -- escape regex metacharacters (note: this turns every remaining backslash
  -- into a slash, which is what loses the escapes of + ^ $ | braces)
  let s := jsReplaceAll ['\\'] ['/'] s
  let s := jsReplaceAll ['.'] ['\\', '.'] s
  let s := jsReplaceAll ['+'] ['\\', '+'] s
  let s := jsReplaceAll ['^'] ['\\', '^'] s
  let s := jsReplaceAll ['$'] ['\\', '$'] s
  let s := jsReplaceAll ['['] ['\\', '['] s
  let s := jsReplaceAll [']'] ['\\', ']'] s
  let s := jsReplaceAll ['{'] ['\\', '{'] s
  let s := jsReplaceAll ['}'] ['\\', '}'] s
  let s := jsReplaceAll ['('] ['\\', '('] s
  let s := jsReplaceAll [')'] ['\\', ')'] s
  -- wildcard markers become regex forms
  let s := jsReplaceAll "__SINGLE_STAR__".toList "[^/]*".toList s
  let s := jsReplaceAll "__QUESTION__".toList "[^/]".toList s
  let s := jsReplaceAll "__DOUBLE_STAR__".toList ['.', '*'] s
  -- escaped placeholders become literal escapes
  let s := jsReplaceAll "__ESCAPED_BACKSLASH__".toList ['\\', '\\'] s
  let s := jsReplaceAll "__ESCAPED_STAR__".toList ['\\', '*'] s
  let s := jsReplaceAll "__ESCAPED_QUESTION__".toList ['\\', '?'] s
  let s := jsReplaceAll "__ESCAPED_LBRACKET__".toList ['\\', '['] s
  let s := jsReplaceAll "__ESCAPED_RBRACKET__".toList ['\\', ']'] s
  let s := jsReplaceAll "__ESCAPED_LBRACE__".toList ['\\', '{'] s
  let s := jsReplaceAll "__ESCAPED_RBRACE__".toList ['\\', '}'] s
  let s := jsReplaceAll "__ESCAPED_LPAREN__".toList ['\\', '('] s
  let s := jsReplaceAll "__ESCAPED_RPAREN__".toList ['\\', ')'] s
  -- anchors
  let s := if listStartsWith s ['^'] then s else '^' :: s
  let s := if s.getLast? = some '$' then s else s ++ ['$']
  s

/-- Glob.isMatch for one string pattern: normalize the candidate path,
expand braces, compile each expansion and test. -/
def isMatch (filePath : String) (pattern : String) : Bool :=
  let testPath := pathNormalize filePath.toList
  (expandBracesL pattern.toList).any
    (fun ep => regexTest (patternToRegexL ep) testPath)

end Glob

/-! ## The modelled filesystem -/

/-- A parsed package.json manifest: the fields the program reads.  A missing
or falsy version is `none` (the source substitutes the sentinel "unknown");
`deps`/`devDeps` are the key counts of the two dependency objects. -/
structure PkgManifest where
  name : Option String
  version : Option String
  deps : Nat
  devDeps : Nat
deriving Repr, DecidableEq

mutual

/-- A filesystem node.

* `file size statOk manifest` — regular file; `statOk = false` makes
  `fs.stat` on it throw; `manifest` is the parsed content when the file is
  valid JSON (`none` = `JSON.parse`, and hence `readJson`, throws).
* `dir mtime statOk readable children` — directory; `readable = false`
  makes `fs.readdir` throw, `statOk = false` makes `fs.stat` throw.
* `symlink targetSize` — symbolic link, reported by `readdir` dirents as
  neither file nor directory; `fs.stat` follows it and reports `targetSize`,
  or throws when the target cannot be statted (`none`, broken link). -/
inductive FSNode where
  | file (size : Nat) (statOk : Bool) (manifest : Option PkgManifest)
  | dir (mtime : Nat) (statOk : Bool) (readable : Bool) (children : FSChildren)
  | symlink (targetSize : Option Nat)

/-- Named directory entries, in readdir order. -/
inductive FSChildren where
  | nil
  | cons (name : String) (node : FSNode) (rest : FSChildren)

end

namespace FSChildren

def toList : FSChildren → List (String × FSNode)
  | .nil => []
  | .cons n c rest => (n, c) :: rest.toList

def ofList : List (String × FSNode) → FSChildren
  | [] => .nil
  | (n, c) :: rest => .cons n c (ofList rest)

def names : FSChildren → List String
  | .nil => []
  | .cons n _ rest => n :: rest.names

end FSChildren

/-- First entry with the given name (directory entry names are unique in a
real filesystem; the well-formedness predicate below captures that). -/
def lookupChild : FSChildren → String → Option FSNode
  | .nil, _ => none
  | .cons n c rest, name => if n = name then some c else lookupChild rest name

/-- Resolve a segment path relative to a node. -/
def FSNode.find : List String → FSNode → Option FSNode
  | [], t => some t
  | n :: rest, .dir _ _ _ cs =>
      match lookupChild cs n with
      | some ch => FSNode.find rest ch
      | none => none
  | _ :: _, _ => none

mutual

/-- Well-formedness: sibling names are unique at every level (as in a real
directory tree). -/
def FSNode.wf : FSNode → Bool
  | .file _ _ _ => true
  | .symlink _ => true
  | .dir _ _ _ cs => decide cs.names.Nodup && FSChildren.wfAll cs

def FSChildren.wfAll : FSChildren → Bool
  | .nil => true
  | .cons _ ch rest => ch.wf && rest.wfAll

end

/-! ## The size calculator (src/core/size-calculator.ts, class SizeCalculator)

The instance cache `Map<string, {size, timestamp}>` is threaded explicitly;
`Date.now()` is the explicit `now` argument, `this.cacheTimeout` the
`tm` argument (its default is 60000). `Map.set` is modelled by prepending,
which the first-match lookup makes observationally identical to in-place
update. -/

abbrev SizeCache := List (List String × Nat × Nat)

def cacheLookup (c : SizeCache) (p : List String) : Option (Nat × Nat) :=
  (c.find? (fun e => e.1 == p)).map (fun e => e.2)

def cacheSet (c : SizeCache) (p : List String) (sz ts : Nat) : SizeCache :=
  (p, sz, ts) :: c

/-- The per-entry promises and their sum inside `calculateDirSize`
(size-calculator.ts:20-45), with the concurrent cache accesses linearized in
entry order: a subdirectory entry performs the recursive
`calculateDirSize` call (cache check, then recompute-and-store on a miss or
stale hit), a file entry contributes its stat size (or 0 when stat throws,
swallowed by the per-entry catch), a symlink entry contributes its target's
stat size (or 0 for a broken link), and anything else contributes 0. -/
def childrenSizes (now tm : Nat) : FSChildren → List String → SizeCache → Nat × SizeCache
  | .nil, _, c => (0, c)
  | .cons n ch rest, p, c =>
      let r1 : Nat × SizeCache :=
        match ch with
        | .file sz ok _ => ((if ok then sz else 0 : Nat), c)
        | .symlink ts => (ts.getD 0, c)
        | .dir _ _ rd cs2 =>
            let fp := p ++ [n]
            let miss := fun (_ : Unit) =>
              if rd then
                let r := childrenSizes now tm cs2 fp c
                (r.1, cacheSet r.2 fp r.1 now)
              else (0, c)
            match cacheLookup c fp with
            | some e => if now - e.2 < tm then (e.1, c) else miss ()
            | none => miss ()
      let r2 := childrenSizes now tm rest p r1.2
      (r1.1 + r2.1, r2.2)

/-- `calculateDirSize` after the cache check: read the directory (a throw —
unreadable directory or non-directory path — is caught and yields 0 with no
cache write), sum the entries, store the total with a fresh timestamp. -/
def calcFresh (now tm : Nat) (t : FSNode) (p : List String) (c : SizeCache) : Nat × SizeCache :=
  match t with
  | .dir _ _ rd cs =>
      if rd then
        let r := childrenSizes now tm cs p c
        (r.1, cacheSet r.2 p r.1 now)
      else (0, c)
  | _ => (0, c)

/-- `SizeCalculator.calculateDirSize(dirPath)` for the node at the path:
return a cached size whose age is below the timeout without touching the
filesystem; otherwise recompute and overwrite the entry. -/
def calculateDirSize (now tm : Nat) (t : FSNode) (p : List String) (c : SizeCache) :
    Nat × SizeCache :=
  match cacheLookup c p with
  | some e => if now - e.2 < tm then (e.1, c) else calcFresh now tm t p c
  | none => calcFresh now tm t p c

/-- `SizeCalculator.getSize(path)`: stat the path (`none` = the path does
not exist, so stat throws and the catch returns 0); a file reports its stat
size, a directory goes through `calculateDirSize`, a statted symlink reports
its target's size. -/
def getSize (now tm : Nat) (t : Option FSNode) (p : List String) (c : SizeCache) :
    Nat × SizeCache :=
  match t with
  | none => (0, c)
  | some (.file sz ok _) => if ok then (sz, c) else (0, c)
  | some (.dir m ok rd cs) =>
      if ok then calculateDirSize now tm (.dir m ok rd cs) p c else (0, c)
  | some (.symlink ts) =>
      match ts with
      | some s => (s, c)
      | none => (0, c)

mutual

/-- Cache-free denotation of a directory entry's size contribution, written
from the specification's policy: a read or stat failure contributes zero, a
symlink contributes its target size when resolvable and zero otherwise, a
directory contributes the sum of its entries under the same policy (zero
when it cannot be read). -/
def specEntrySize : FSNode → Nat
  | .file sz ok _ => if ok then sz else 0
  | .symlink ts => ts.getD 0
  | .dir _ _ rd cs => if rd then specChildrenSize cs else 0

def specChildrenSize : FSChildren → Nat
  | .nil => 0
  | .cons _ ch rest => specEntrySize ch + specChildrenSize rest

end

/-- Cache-free denotation of `calculateDirSize` at a node: entry sum for a
readable directory, zero for anything else. -/
def specDirSize : FSNode → Nat
  | .dir m ok rd cs => specEntrySize (.dir m ok rd cs)
  | _ => 0

/-! ## The scanner (src/core/scanner.ts, class Scanner) -/

/-- The options argument of `Scanner.scan` (src/types ScanOptions): a field
is `none` when absent from the object literal.

Modelled from the spec: the `followSymlinks` member.  The ScanOptions
interface declaration itself is not part of the corpus (only its importers
are); §3/§6 of the specification list `followSymlinks` ("whether symlinked
entries are followed") among the scan options, so the record carries it. -/
structure ScanOptionsIn where
  maxDepth : Option Nat := none
  excludePaths : Option (List String) := none
  includeHidden : Option Bool := none
  parallel : Option Bool := none
  showProgress : Option Bool := none
  followSymlinks : Option Bool := none
deriving Repr, DecidableEq

/-- The resolved options after the defaults spread at the top of
`Scanner.scan` (scanner.ts:10-17). -/
structure ScanOptions where
  maxDepth : Nat
  excludePaths : List String
  includeHidden : Bool
  parallel : Bool
  showProgress : Bool
  followSymlinks : Bool
deriving Repr, DecidableEq

def resolveOptions (o : ScanOptionsIn) : ScanOptions where
  maxDepth := o.maxDepth.getD 10
  excludePaths := o.excludePaths.getD ["**/node_modules/node_modules/**"]
  includeHidden := o.includeHidden.getD false
  parallel := o.parallel.getD true
  showProgress := o.showProgress.getD false
  followSymlinks := o.followSymlinks.getD false

/-- Render a segment path under the root string the way repeated
path.join(parent, name) builds it. -/
def renderPathL (rootStr : String) (p : List String) : List Char :=
  rootStr.toList ++ p.flatMap (fun n => '/' :: n.toList)

/-- The hidden-segment test of `shouldExclude` (scanner.ts:33-38): split the
full path on the separator and look for a segment that starts with a dot and
is not the bare dot. -/
def hiddenPart (dirPath : List Char) : Bool :=
  (listSplitOn '/' dirPath).any (fun part => listStartsWith part ['.'] && part ≠ ['.'])

/-- `shouldExclude` (scanner.ts:32-49): the hidden check (on the full
path) unless hidden entries are included, then the glob test of the full
joined path against each exclusion pattern. -/
def shouldExclude (rootStr : String) (includeHidden : Bool) (excludePaths : List String)
    (p : List String) : Bool :=
  let dirPath := renderPathL rootStr p
  (if ¬ includeHidden then hiddenPart dirPath else false)
    || excludePaths.any (fun pat => Glob.isMatch ⟨dirPath⟩ pat)

/-- Traversal state: the visited set (normalized paths — the identity on
the segment representation) and the results array. -/
structure WalkState where
  visited : List (List String)
  results : List (List String)
deriving Repr, DecidableEq

mutual

/-- `findNodeModules.walk` (scanner.ts:51-78): stop beyond the depth bound
(`options.maxDepth || 10`, so an explicit 0 falls back to 10), refuse
already-visited paths, mark the path visited, read the directory (a read
failure — or a non-directory path — is caught and contributes nothing), and
process the entries in order. -/
def walkNode (rootStr : String) (includeHidden : Bool) (excludePaths : List String)
    (maxDepth : Nat) : FSNode → List String → Nat → WalkState → WalkState
  | t, p, depth, st =>
    if depth > (if maxDepth = 0 then 10 else maxDepth) then st
    else if p ∈ st.visited then st
    else
      let st1 : WalkState := ⟨p :: st.visited, st.results⟩
      match t with
      | .dir _ _ rd cs =>
          if rd then walkEntries rootStr includeHidden excludePaths maxDepth cs p depth st1
          else st1
      | _ => st1

/-- The entry loop of `walk` (scanner.ts:61-74): skip non-directories,
skip excluded paths, emit an install root without descending into it,
recurse into everything else one level deeper. -/
def walkEntries (rootStr : String) (includeHidden : Bool) (excludePaths : List String)
    (maxDepth : Nat) : FSChildren → List String → Nat → WalkState → WalkState
  | .nil, _, _, st => st
  | .cons n ch rest, p, depth, st =>
      let st2 : WalkState :=
        match ch with
        | .dir _ _ _ _ =>
            let fp := p ++ [n]
            if shouldExclude rootStr includeHidden excludePaths fp then st
            else if n = "node_modules" then ⟨st.visited, st.results ++ [fp]⟩
            else walkNode rootStr includeHidden excludePaths maxDepth ch fp (depth + 1) st
        | _ => st
      walkEntries rootStr includeHidden excludePaths maxDepth rest p depth st2

end

/-- `Scanner.findNodeModules`: run the walk from the root with empty state.
A nonexistent root (`none`) makes the readdir throw; the catch swallows it
and the result list stays empty. -/
def findNodeModules (root : Option FSNode) (rootStr : String) (opts : ScanOptions) :
    List (List String) :=
  match root with
  | some t =>
      (walkNode rootStr opts.includeHidden opts.excludePaths opts.maxDepth t [] 0 ⟨[], []⟩).results
  | none => []

mutual

/-- Visited-free denotation of `walk`, parameterized by the exclusion
predicate; the theorems below prove it equal to `walkNode` on well-formed
trees, where the visited set can never fire. -/
def walkPureNode (excl : List String → Bool) (maxDepth : Nat) :
    FSNode → List String → Nat → List (List String)
  | t, p, depth =>
      if depth > (if maxDepth = 0 then 10 else maxDepth) then []
      else
        match t with
        | .dir _ _ rd cs => if rd then walkPureEntries excl maxDepth cs p depth else []
        | _ => []

def walkPureEntries (excl : List String → Bool) (maxDepth : Nat) :
    FSChildren → List String → Nat → List (List String)
  | .nil, _, _ => []
  | .cons n ch rest, p, depth =>
      (match ch with
       | .dir _ _ _ _ =>
          let fp := p ++ [n]
          if excl fp then []
          else if n = "node_modules" then [fp]
          else walkPureNode excl maxDepth ch fp (depth + 1)
       | _ => []) ++ walkPureEntries excl maxDepth rest p depth

end

/-! ### Descriptor construction (scanner.ts:107-200)

The descriptor record drops the `sizeFormatted` field of the source: it is
a deterministic rendering of `size` through floating-point `Math.log`
(information-free given `size`), and nothing in scope reads it. -/

structure PackageInfo where
  name : String
  version : String
  size : Nat
  dependencies : Nat
  path : List String
deriving Repr, DecidableEq

structure NodeModulesInfo where
  path : List String
  size : Nat
  packageCount : Nat
  lastModified : Nat
  packages : List PackageInfo
  projectName : Option String
  projectPath : List String
deriving Repr, DecidableEq

/-- `Scanner.getPackageInfo` for a directory entry: require the manifest to
exist (a broken symlink fails the access check), parse it (a directory, an
unparseable file, or a symlinked manifest — whose target content the model
does not carry — throws, caught as null), then size the package directory
through the shared cache.  The version falls back to "unknown" when missing
or falsy; the dependency count sums both key counts. -/
def getPackageInfo (now tm : Nat) (ch : FSNode) (pkgPath : List String) (pkgName : String)
    (c : SizeCache) : Option PackageInfo × SizeCache :=
  match ch with
  | .dir _ _ _ cs =>
      match lookupChild cs "package.json" with
      | some (.file _ _ (some j)) =>
          let r := calculateDirSize now tm ch pkgPath c
          (some ⟨pkgName, j.version.getD "unknown", r.1, j.deps + j.devDeps, pkgPath⟩, r.2)
      | _ => (none, c)
  | _ => (none, c)

/-- The scoped-entry loop of `Scanner.getPackages` (scanner.ts:145-152):
every directory entry one level below a scope directory yields a package
named scope/name. -/
def scopedPackages (now tm : Nat) : FSChildren → List String → String → SizeCache →
    List PackageInfo × SizeCache
  | .nil, _, _, c => ([], c)
  | .cons n2 ch2 rest, scopePath, scopeName, c =>
      let r1 : Option PackageInfo × SizeCache :=
        match ch2 with
        | .dir _ _ _ _ =>
            getPackageInfo now tm ch2 (scopePath ++ [n2]) (scopeName ++ "/" ++ n2) c
        | _ => (none, c)
      let r2 := scopedPackages now tm rest scopePath scopeName r1.2
      ((match r1.1 with | some i => [i] | none => []) ++ r2.1, r2.2)

/-- The entry loop of `Scanner.getPackages` (scanner.ts:139-157): skip
non-directories and dot-entries; a scope directory (name starting with the
at sign) is expanded one level (an unreadable scope directory lists as
empty), anything else is a package candidate. -/
def packagesOf (now tm : Nat) : FSChildren → List String → SizeCache →
    List PackageInfo × SizeCache
  | .nil, _, c => ([], c)
  | .cons n ch rest, nmPath, c =>
      let r1 : List PackageInfo × SizeCache :=
        match ch with
        | .dir _ _ rd2 cs2 =>
            if listStartsWith n.toList ['.'] then ([], c)
            else if listStartsWith n.toList ['@'] then
              if rd2 then scopedPackages now tm cs2 (nmPath ++ [n]) n c else ([], c)
            else
              let r := getPackageInfo now tm ch (nmPath ++ [n]) n c
              ((match r.1 with | some i => [i] | none => []), r.2)
        | _ => ([], c)
      let r2 := packagesOf now tm rest nmPath r1.2
      (r1.1 ++ r2.1, r2.2)

/-- `Scanner.getPackages`: list the install root (readdir failures caught as
an empty listing) and collect the package candidates. -/
def getPackages (now tm : Nat) (nm : FSNode) (nmPath : List String) (c : SizeCache) :
    List PackageInfo × SizeCache :=
  match nm with
  | .dir _ _ rd cs => if rd then packagesOf now tm cs nmPath c else ([], c)
  | _ => ([], c)

/-- path.basename of the root string (used when the project path has no
segments of its own). -/
def rootBasename (s : String) : String :=
  ⟨((((listSplitOn '/' s.toList).filter (· ≠ []))).getLast?).getD []⟩

def basenameOf (rootStr : String) (p : List String) : String :=
  match p.getLast? with
  | some n => n
  | none => rootBasename rootStr

/-- `Scanner.getProjectName`: the manifest's name field when the manifest
exists and parses (possibly absent, in which case the project name stays
undefined), otherwise the directory's base name. -/
def getProjectName (root : FSNode) (rootStr : String) (projectPath : List String) :
    Option String :=
  match FSNode.find projectPath root with
  | some (.dir _ _ _ cs) =>
      (match lookupChild cs "package.json" with
       | some (.file _ _ (some j)) => j.name
       | some _ => some (basenameOf rootStr projectPath)
       | none => some (basenameOf rootStr projectPath))
  | _ => some (basenameOf rootStr projectPath)

/-- `Scanner.scanSingleNodeModules`: stat the discovered path (a vanished
path — no longer found in the tree — or a failing stat yields null, dropped
from the results), then size it, collect its packages and name the owning
project.  The scanner only passes paths it just discovered as directories,
so the directory arm is the live one. -/
def scanSingleNodeModules (root : FSNode) (rootStr : String) (p : List String)
    (now tm : Nat) (c : SizeCache) : Option NodeModulesInfo × SizeCache :=
  match FSNode.find p root with
  | some (.dir mtime ok rd cs) =>
      if ok then
        let rSize := calculateDirSize now tm (.dir mtime ok rd cs) p c
        let rPkgs := getPackages now tm (.dir mtime ok rd cs) p rSize.2
        let projectPath := p.dropLast
        (some ⟨p, rSize.1, rPkgs.1.length, mtime, rPkgs.1,
               getProjectName root rootStr projectPath, projectPath⟩, rPkgs.2)
      else (none, c)
  | _ => (none, c)

/-- `Scanner.scanSequential`: resolve each found path in order, keeping the
non-null descriptors. -/
def scanSequential (root : FSNode) (rootStr : String) : List (List String) →
    Nat → Nat → SizeCache → List NodeModulesInfo × SizeCache
  | [], _, _, c => ([], c)
  | p :: rest, now, tm, c =>
      let r1 := scanSingleNodeModules root rootStr p now tm c
      let r2 := scanSequential root rootStr rest now tm r1.2
      ((match r1.1 with | some i => [i] | none => []) ++ r2.1, r2.2)

/-- `Scanner.scanParallel`: allSettled preserves input order and
`scanSingleNodeModules` never rejects, so the fulfilled non-null filter
yields the same list as the sequential resolution; the concurrent accesses
to the shared size cache are linearized in the same order. -/
def scanParallel (root : FSNode) (rootStr : String) : List (List String) →
    Nat → Nat → SizeCache → List NodeModulesInfo × SizeCache
  | [], _, _, c => ([], c)
  | p :: rest, now, tm, c =>
      let r1 := scanSingleNodeModules root rootStr p now tm c
      let r2 := scanParallel root rootStr rest now tm r1.2
      ((match r1.1 with | some i => [i] | none => []) ++ r2.1, r2.2)

/-- `Scanner.scan`: resolve the options, find the install roots, resolve
them into descriptors. -/
def scan (root : Option FSNode) (rootStr : String) (optsIn : ScanOptionsIn)
    (now tm : Nat) (c : SizeCache) : List NodeModulesInfo × SizeCache :=
  let opts := resolveOptions optsIn
  let paths := findNodeModules root rootStr opts
  match root with
  | some t =>
      if opts.parallel then scanParallel t rootStr paths now tm c
      else scanSequential t rootStr paths now tm c
  | none => ([], c)

mutual

/-- Remove every symlink entry of the tree (used to state that the walker
never looks at symlinked entries). -/
def pruneSymlinksN : FSNode → FSNode
  | .file sz ok m => .file sz ok m
  | .symlink ts => .symlink ts
  | .dir mt ok rd cs => .dir mt ok rd (pruneSymlinksC cs)

def pruneSymlinksC : FSChildren → FSChildren
  | .nil => .nil
  | .cons _ (.symlink _) rest => pruneSymlinksC rest
  | .cons n ch rest => .cons n (pruneSymlinksN ch) (pruneSymlinksC rest)

end

mutual

/-- Every path handed to the exclusion check during a walk of the tree: the
path of each directory-entry position. -/
def entryPathsN : FSNode → List String → List (List String)
  | .dir _ _ _ cs, p => entryPathsC cs p
  | _, _ => []

def entryPathsC : FSChildren → List String → List (List String)
  | .nil, _ => []
  | .cons n ch rest, p => (p ++ [n]) :: (entryPathsN ch (p ++ [n]) ++ entryPathsC rest p)

end

/-! ## The duplicate analyzer (src/core/analyzer.ts, class Analyzer) -/

structure DupEntry where
  versions : List String
  locations : List (List String)
  sizes : List Nat
deriving Repr, DecidableEq

structure DuplicatePackage where
  name : String
  versions : List String
  locations : List (List String)
  totalSize : ℚ
  potentialSavings : ℚ
deriving Repr, DecidableEq

structure DuplicateReport where
  totalDuplicates : Nat
  potentialSavings : ℚ
  packages : List DuplicatePackage
deriving Repr, DecidableEq

/-- Set.add on the versions array (JS Sets keep insertion order). -/
def addVersion (vs : List String) (v : String) : List String :=
  if v ∈ vs then vs else vs ++ [v]

/-- One package observation folded into the name-keyed map
(analyzer.ts:56-71): a fresh name is appended, an existing entry records
the version, owning project path and size. -/
def mapUpdate : List (String × DupEntry) → String → String → List String → Nat →
    List (String × DupEntry)
  | [], name, v, loc, sz => [(name, ⟨[v], [loc], [sz]⟩)]
  | (n, e) :: rest, name, v, loc, sz =>
      if n = name then
        (n, ⟨addVersion e.versions v, e.locations ++ [loc], e.sizes ++ [sz]⟩) :: rest
      else (n, e) :: mapUpdate rest name v loc sz

def buildMap (rs : List NodeModulesInfo) : List (String × DupEntry) :=
  rs.foldl
    (fun m r =>
      r.packages.foldl (fun m2 pkg => mapUpdate m2 pkg.name pkg.version r.projectPath pkg.size) m)
    []

/-- The duplicate group built from a map entry (analyzer.ts:78-89):
`totalSize` sums the observed sizes, the savings subtract one average-sized
copy. -/
def dupOf (n : String) (e : DupEntry) : DuplicatePackage :=
  let totalSize : ℚ := (e.sizes.map (fun s : Nat => (s : ℚ))).sum
  let avg : ℚ := totalSize / (e.sizes.length : ℚ)
  ⟨n, e.versions, e.locations, totalSize, totalSize - avg⟩

/-- Descending order on potential savings, the sort comparator of
analyzer.ts:95. -/
def savingsGE (a b : DuplicatePackage) : Prop :=
  b.potentialSavings ≤ a.potentialSavings

instance : DecidableRel savingsGE := fun a b =>
  inferInstanceAs (Decidable (b.potentialSavings ≤ a.potentialSavings))

/-- `Analyzer.analyzeDuplicates`: group the observations by package name,
keep the names observed more than once, accumulate the report savings, sort
descending by per-package savings (a stable sort, as ECMAScript mandates). -/
def analyzeDuplicates (rs : List NodeModulesInfo) : DuplicateReport :=
  let m := buildMap rs
  let dups := (m.filter (fun x => 1 < x.2.locations.length)).map (fun x => dupOf x.1 x.2)
  let total := (dups.map (fun d => d.potentialSavings)).sum
  ⟨dups.length, total, dups.insertionSort savingsGE⟩

/-- All (owning project path, size) observations of one package name across
the descriptor list, in traversal order — the specification's view of what
the analyzer groups. -/
def observations (name : String) (rs : List NodeModulesInfo) : List (List String × Nat) :=
  rs.flatMap (fun r => (r.packages.filter (fun pkg => pkg.name = name)).map
    (fun pkg => (r.projectPath, pkg.size)))

/-! ## Specification-side denotations and predicates -/

/-- One path is an ancestor-or-equal of another (segment lists). -/
def pathPrefix (p q : List String) : Prop := ∃ r, p ++ r = q

instance (p q : List String) : Decidable (pathPrefix p q) :=
  decidable_of_iff (q.take p.length = p) (by
    constructor
    · intro h
      refine ⟨q.drop p.length, ?_⟩
      nth_rewrite 1 [← h]
      exact List.take_append_drop p.length q
    · rintro ⟨r, rfl⟩
      simp)

/-- The effective depth bound of the walker: `options.maxDepth || 10`. -/
def effectiveMaxDepth (m : Nat) : Nat := if m = 0 then 10 else m

/-- The invariant tying a size cache to the tree it was filled from: every
entry is stale (its age reaches the timeout) or holds exactly the cache-free
size of the node at its path. -/
def goodCache (fs : FSNode) (now tm : Nat) (c : SizeCache) : Prop :=
  ∀ e ∈ c, ¬ (now - e.2.2 < tm) ∨
    ∃ t, FSNode.find e.1 fs = some t ∧ e.2.1 = specDirSize t

/-- Cache-free denotation of `getPackageInfo`. -/
def pureGetPackageInfo (ch : FSNode) (pkgPath : List String) (pkgName : String) :
    Option PackageInfo :=
  match ch with
  | .dir _ _ _ cs =>
      match lookupChild cs "package.json" with
      | some (.file _ _ (some j)) =>
          some ⟨pkgName, j.version.getD "unknown", specDirSize ch, j.deps + j.devDeps, pkgPath⟩
      | _ => none
  | _ => none

/-- Cache-free denotation of the scoped-entry loop. -/
def pureScopedPackages : FSChildren → List String → String → List PackageInfo
  | .nil, _, _ => []
  | .cons n2 ch2 rest, scopePath, scopeName =>
      (match ch2 with
       | .dir _ _ _ _ =>
          (pureGetPackageInfo ch2 (scopePath ++ [n2]) (scopeName ++ "/" ++ n2)).toList
       | _ => []) ++ pureScopedPackages rest scopePath scopeName

/-- Cache-free denotation of the package-entry loop. -/
def purePackagesOf : FSChildren → List String → List PackageInfo
  | .nil, _ => []
  | .cons n ch rest, nmPath =>
      (match ch with
       | .dir _ _ rd2 cs2 =>
          if listStartsWith n.toList ['.'] then []
          else if listStartsWith n.toList ['@'] then
            if rd2 then pureScopedPackages cs2 (nmPath ++ [n]) n else []
          else (pureGetPackageInfo ch (nmPath ++ [n]) n).toList
       | _ => []) ++ purePackagesOf rest nmPath

/-- Cache-free denotation of `getPackages`. -/
def pureGetPackages (nm : FSNode) (nmPath : List String) : List PackageInfo :=
  match nm with
  | .dir _ _ rd cs => if rd then purePackagesOf cs nmPath else []
  | _ => []

/-- Cache-free denotation of `scanSingleNodeModules`: the descriptor is a
function of the tree and the discovered path alone. -/
def pureScanSingle (root : FSNode) (rootStr : String) (p : List String) :
    Option NodeModulesInfo :=
  match FSNode.find p root with
  | some (.dir mtime ok rd cs) =>
      if ok then
        some ⟨p, specDirSize (.dir mtime ok rd cs),
              (pureGetPackages (.dir mtime ok rd cs) p).length, mtime,
              pureGetPackages (.dir mtime ok rd cs) p,
              getProjectName root rootStr p.dropLast, p.dropLast⟩
      else none
  | _ => none

/-- First-match association lookup on the analyzer's name-keyed map. -/
def mapLookup (m : List (String × DupEntry)) (name : String) : Option DupEntry :=
  (m.find? (fun x => x.1 == name)).map (fun x => x.2)

instance : IsTrans DuplicatePackage savingsGE :=
  ⟨fun _ _ _ h1 h2 => le_trans h2 h1⟩

instance : IsTotal DuplicatePackage savingsGE :=
  ⟨fun a b => (le_total b.potentialSavings a.potentialSavings).imp id id⟩

/-- Two concrete install-root descriptors, each holding one package named
lodash at version 4.17.21 of 1,000,000 bytes, owned by the two distinct
projects a and b: the worked duplicate example of the specification. -/
def descA : NodeModulesInfo :=
  ⟨["a", "node_modules"], 1000000, 1, 0,
   [⟨"lodash", "4.17.21", 1000000, 0, ["a", "node_modules", "lodash"]⟩],
   none, ["a"]⟩

def descB : NodeModulesInfo :=
  ⟨["b", "node_modules"], 1000000, 1, 0,
   [⟨"lodash", "4.17.21", 1000000, 0, ["b", "node_modules", "lodash"]⟩],
   none, ["b"]⟩

/-! ## Helper lemmas: paths, cache, tree lookup -/

theorem pathPrefix_refl (p : List String) : pathPrefix p p := ⟨[], by simp⟩

theorem pathPrefix_length {p q : List String} (h : pathPrefix p q) : p.length ≤ q.length := by
  rcases h with ⟨r, rfl⟩
  simp

theorem pathPrefix_of_snoc {p q : List String} {x : String}
    (h : pathPrefix (p ++ [x]) q) : pathPrefix p q := by
  rcases h with ⟨r, rfl⟩
  exact ⟨[x] ++ r, by simp⟩

theorem pathPrefix_snoc_inj {p q : List String} {a b : String}
    (ha : pathPrefix (p ++ [a]) q) (hb : pathPrefix (p ++ [b]) q) : a = b := by
  rcases ha with ⟨r1, h1⟩
  rcases hb with ⟨r2, h2⟩
  rw [← h2] at h1
  have h3 : a = b ∧ r1 = r2 := by simpa using h1
  exact h3.1

theorem not_pathPrefix_snoc_self {p : List String} {x : String} :
    ¬ pathPrefix (p ++ [x]) p := by
  intro h
  have := pathPrefix_length h
  simp at this

theorem cacheLookup_set (c : SizeCache) (p : List String) (sz ts : Nat) :
    cacheLookup (cacheSet c p sz ts) p = some (sz, ts) := by
  simp [cacheLookup, cacheSet, List.find?]

theorem names_of_mem : ∀ (cs : FSChildren) (x : String × FSNode),
    x ∈ cs.toList → x.1 ∈ cs.names
  | .nil, x, h => by simp [FSChildren.toList] at h
  | .cons m c rest, x, h => by
      simp only [FSChildren.toList, List.mem_cons] at h
      simp only [FSChildren.names, List.mem_cons]
      rcases h with rfl | h
      · exact Or.inl rfl
      · exact Or.inr (names_of_mem rest x h)

theorem lookupChild_of_mem : ∀ (cs : FSChildren) (n : String) (ch : FSNode),
    (n, ch) ∈ cs.toList → cs.names.Nodup → lookupChild cs n = some ch
  | .nil, n, ch, hmem, _ => by simp [FSChildren.toList] at hmem
  | .cons m c rest, n, ch, hmem, hnd => by
      simp only [FSChildren.toList, List.mem_cons, Prod.mk.injEq] at hmem
      simp only [FSChildren.names, List.nodup_cons] at hnd
      rcases hmem with ⟨rfl, rfl⟩ | h
      · simp [lookupChild]
      · have hrec := lookupChild_of_mem rest n ch h hnd.2
        have hne : m ≠ n := by
          rintro rfl
          exact hnd.1 (names_of_mem rest (m, ch) h)
        simp [lookupChild, hne, hrec]

theorem wfAll_of_lookup : ∀ (cs : FSChildren) (n : String) (ch : FSNode),
    FSChildren.wfAll cs = true → lookupChild cs n = some ch → FSNode.wf ch = true
  | .nil, n, ch, _, h => by simp [lookupChild] at h
  | .cons m c rest, n, ch, hwf, h => by
      simp only [FSChildren.wfAll, Bool.and_eq_true] at hwf
      by_cases hmn : m = n
      · subst hmn
        simp [lookupChild] at h
        exact h ▸ hwf.1
      · simp [lookupChild, hmn] at h
        exact wfAll_of_lookup rest n ch hwf.2 h

theorem wfAll_of_mem : ∀ (cs : FSChildren) (x : String × FSNode),
    FSChildren.wfAll cs = true → x ∈ cs.toList → FSNode.wf x.2 = true
  | .nil, x, _, h => by simp [FSChildren.toList] at h
  | .cons m c rest, x, hwf, h => by
      simp only [FSChildren.wfAll, Bool.and_eq_true] at hwf
      simp only [FSChildren.toList, List.mem_cons] at h
      rcases h with rfl | h
      · exact hwf.1
      · exact wfAll_of_mem rest x hwf.2 h

theorem find_append (p q : List String) :
    ∀ t : FSNode, FSNode.find (p ++ q) t = (FSNode.find p t).bind (FSNode.find q) := by
  induction p with
  | nil => intro t; simp [FSNode.find]
  | cons n rest ih =>
      intro t
      cases t with
      | file sz ok m => simp [FSNode.find]
      | symlink ts => simp [FSNode.find]
      | dir mt ok rd cs =>
          simp only [List.cons_append, FSNode.find]
          cases lookupChild cs n with
          | none => simp
          | some ch => simpa using ih ch

theorem find_snoc (p : List String) (n : String) (t : FSNode) :
    FSNode.find (p ++ [n]) t =
      match FSNode.find p t with
      | some (.dir _ _ _ cs) => lookupChild cs n
      | _ => none := by
  rw [find_append]
  cases hf : FSNode.find p t with
  | none => simp
  | some t' =>
      cases t' with
      | file sz ok m => simp [FSNode.find]
      | symlink ts => simp [FSNode.find]
      | dir mt ok rd cs =>
          cases hlc : lookupChild cs n <;> simp [FSNode.find, hlc]

theorem find_child {fs : FSNode} {p : List String} {mt : Nat} {ok rd : Bool}
    {cs : FSChildren} (hf : FSNode.find p fs = some (.dir mt ok rd cs))
    (hnd : cs.names.Nodup) {n : String} {ch : FSNode} (hmem : (n, ch) ∈ cs.toList) :
    FSNode.find (p ++ [n]) fs = some ch := by
  rw [find_snoc, hf]
  exact lookupChild_of_mem cs n ch hmem hnd

theorem find_wf : ∀ (p : List String) (t t' : FSNode),
    FSNode.wf t = true → FSNode.find p t = some t' → FSNode.wf t' = true := by
  intro p
  induction p with
  | nil => intro t t' hwf h; simp [FSNode.find] at h; exact h ▸ hwf
  | cons n rest ih =>
      intro t t' hwf h
      cases t with
      | file sz ok m => simp [FSNode.find] at h
      | symlink ts => simp [FSNode.find] at h
      | dir mt ok rd cs =>
          simp only [FSNode.find] at h
          cases hlc : lookupChild cs n with
          | none => rw [hlc] at h; simp at h
          | some ch =>
              rw [hlc] at h
              simp only [FSNode.wf, Bool.and_eq_true] at hwf
              exact ih ch t' (wfAll_of_lookup cs n ch hwf.2 hlc) h

theorem wf_dir_nodup {mt : Nat} {ok rd : Bool} {cs : FSChildren}
    (h : FSNode.wf (.dir mt ok rd cs) = true) : cs.names.Nodup := by
  simp only [FSNode.wf, Bool.and_eq_true, decide_eq_true_eq] at h
  exact h.1

theorem wf_dir_all {mt : Nat} {ok rd : Bool} {cs : FSChildren}
    (h : FSNode.wf (.dir mt ok rd cs) = true) : FSChildren.wfAll cs = true := by
  simp only [FSNode.wf, Bool.and_eq_true] at h
  exact h.2

/-! ## The size calculator meets its cache-free denotation -/

theorem goodCache_set {fs : FSNode} {now tm : Nat} {c : SizeCache}
    (hg : goodCache fs now tm c) {p : List String} {t : FSNode} {sz : Nat}
    (hf : FSNode.find p fs = some t) (hsz : sz = specDirSize t) :
    goodCache fs now tm (cacheSet c p sz now) := by
  intro e he
  simp only [cacheSet, List.mem_cons] at he
  rcases he with rfl | he
  · exact Or.inr ⟨t, hf, hsz⟩
  · exact hg e he

theorem goodCache_hit {fs : FSNode} {now tm : Nat} {c : SizeCache}
    (hg : goodCache fs now tm c) {p : List String} {v ts : Nat}
    (hl : cacheLookup c p = some (v, ts)) (hv : now - ts < tm) {t : FSNode}
    (hf : FSNode.find p fs = some t) : v = specDirSize t := by
  simp only [cacheLookup, Option.map_eq_some'] at hl
  obtain ⟨e, he, hev⟩ := hl
  have hmem := List.mem_of_find?_eq_some he
  have hp := List.find?_some he
  simp only [beq_iff_eq] at hp
  rcases hg e hmem with hstale | ⟨t', hft', hsz⟩
  · rw [hev] at hstale
    exact absurd hv hstale
  · rw [hp, hf] at hft'
    have ht : t' = t := by
      injection hft' with h
      exact h.symm
    rw [hev] at hsz
    rw [← ht]
    exact hsz

theorem calculateDirSize_cases (now tm : Nat) (t : FSNode) (p : List String) (c : SizeCache) :
    (∃ v ts, cacheLookup c p = some (v, ts) ∧ now - ts < tm ∧
      calculateDirSize now tm t p c = (v, c)) ∨
    calculateDirSize now tm t p c = calcFresh now tm t p c := by
  unfold calculateDirSize
  cases hl : cacheLookup c p with
  | none => exact Or.inr rfl
  | some e =>
      obtain ⟨v, ts⟩ := e
      by_cases hv : now - ts < tm
      · exact Or.inl ⟨v, ts, rfl, hv, by simp [hv]⟩
      · simp [hv]

/-- Fold the per-entry promise of a directory child back into the top-level
function: the inlined cache check of `childrenSizes` is `calculateDirSize`. -/
theorem childrenSizes_cons_dir (now tm : Nat) (n : String) (mt : Nat) (ok rd : Bool)
    (cs2 rest : FSChildren) (p : List String) (c : SizeCache) :
    childrenSizes now tm (.cons n (.dir mt ok rd cs2) rest) p c =
      (let r1 := calculateDirSize now tm (.dir mt ok rd cs2) (p ++ [n]) c
       let r2 := childrenSizes now tm rest p r1.2
       (r1.1 + r2.1, r2.2)) := by
  simp only [childrenSizes, calculateDirSize, calcFresh]

/-- The workhorse: on a well-formed tree, `calculateDirSize` run against any
cache every entry of which is stale or truthful computes exactly the
cache-free size, and preserves that cache invariant; likewise for the entry
loop. -/
theorem sizeNode_spec (fs : FSNode) (now tm : Nat) :
    ∀ t : FSNode, ∀ p c, FSNode.wf t = true → FSNode.find p fs = some t →
      goodCache fs now tm c →
      (calculateDirSize now tm t p c).1 = specDirSize t ∧
      goodCache fs now tm (calculateDirSize now tm t p c).2 := by
  have main : ∀ t : FSNode, (∀ p c, FSNode.wf t = true → FSNode.find p fs = some t →
      goodCache fs now tm c →
      (calculateDirSize now tm t p c).1 = specDirSize t ∧
      goodCache fs now tm (calculateDirSize now tm t p c).2) := by
    refine @FSNode.rec
      (fun t => ∀ p c, FSNode.wf t = true → FSNode.find p fs = some t →
        goodCache fs now tm c →
        (calculateDirSize now tm t p c).1 = specDirSize t ∧
        goodCache fs now tm (calculateDirSize now tm t p c).2)
      (fun cs => ∀ p c, FSChildren.wfAll cs = true →
        (∀ x ∈ cs.toList, FSNode.find (p ++ [x.1]) fs = some x.2) →
        goodCache fs now tm c →
        (childrenSizes now tm cs p c).1 = specChildrenSize cs ∧
        goodCache fs now tm (childrenSizes now tm cs p c).2)
      ?_ ?_ ?_ ?_ ?_
    · -- file
      intro sz ok m p c _ hf hg
      rcases calculateDirSize_cases now tm (.file sz ok m) p c with ⟨v, ts, hl, hv, heq⟩ | heq
      · rw [heq]
        exact ⟨goodCache_hit hg hl hv hf, hg⟩
      · rw [heq]
        exact ⟨rfl, hg⟩
    · -- dir
      intro mt ok rd cs ih p c hwf hf hg
      rcases calculateDirSize_cases now tm (.dir mt ok rd cs) p c with ⟨v, ts, hl, hv, heq⟩ | heq
      · rw [heq]
        exact ⟨goodCache_hit hg hl hv hf, hg⟩
      · rw [heq]
        by_cases hrd : rd = true
        · subst hrd
          have hfind : ∀ x ∈ cs.toList, FSNode.find (p ++ [x.1]) fs = some x.2 := by
            intro x hx
            exact find_child hf (wf_dir_nodup hwf) (by
              obtain ⟨x1, x2⟩ := x
              exact hx)
          obtain ⟨hval, hgood⟩ := ih p c (wf_dir_all hwf) hfind hg
          simp only [calcFresh]
          constructor
          · simpa [specDirSize, specEntrySize] using hval
          · exact goodCache_set hgood hf (by simp [specDirSize, specEntrySize, ← hval])
        · simp only [Bool.not_eq_true] at hrd
          subst hrd
          simp only [calcFresh]
          exact ⟨by simp [specDirSize, specEntrySize], hg⟩
    · -- symlink
      intro ts p c _ hf hg
      rcases calculateDirSize_cases now tm (.symlink ts) p c with ⟨v, ts', hl, hv, heq⟩ | heq
      · rw [heq]
        exact ⟨goodCache_hit hg hl hv hf, hg⟩
      · rw [heq]
        exact ⟨rfl, hg⟩
    · -- nil
      intro p c _ _ hg
      exact ⟨rfl, hg⟩
    · -- cons
      intro n ch rest ihn ihr p c hwf hfind hg
      have hwf1 : FSNode.wf ch = true := by
        simp only [FSChildren.wfAll, Bool.and_eq_true] at hwf
        exact hwf.1
      have hwf2 : FSChildren.wfAll rest = true := by
        simp only [FSChildren.wfAll, Bool.and_eq_true] at hwf
        exact hwf.2
      have hfhead : FSNode.find (p ++ [n]) fs = some ch :=
        hfind (n, ch) (by simp [FSChildren.toList])
      have hfrest : ∀ x ∈ rest.toList, FSNode.find (p ++ [x.1]) fs = some x.2 := by
        intro x hx
        exact hfind x (by simp [FSChildren.toList, hx])
      cases ch with
      | file sz ok m =>
          simp only [childrenSizes]
          obtain ⟨hval, hgood⟩ := ihr p c hwf2 hfrest hg
          exact ⟨by simp [hval, specChildrenSize, specEntrySize], hgood⟩
      | symlink ts =>
          simp only [childrenSizes]
          obtain ⟨hval, hgood⟩ := ihr p c hwf2 hfrest hg
          exact ⟨by simp [hval, specChildrenSize, specEntrySize], hgood⟩
      | dir mt ok rd cs2 =>
          rw [childrenSizes_cons_dir]
          obtain ⟨hv1, hg1⟩ := ihn (p ++ [n]) c hwf1 hfhead hg
          obtain ⟨hv2, hg2⟩ := ihr p _ hwf2 hfrest hg1
          refine ⟨?_, hg2⟩
          simp only [hv1, hv2, specChildrenSize, specDirSize, specEntrySize]
  exact main

/-- Every entry of the cache returned by `calculateDirSize` was already
present or carries the current timestamp. -/
theorem sizeNode_times (now tm : Nat) :
    ∀ t : FSNode, ∀ p c e, e ∈ (calculateDirSize now tm t p c).2 →
      e ∈ c ∨ e.2.2 = now := by
  have main : ∀ t : FSNode, (∀ p c e, e ∈ (calculateDirSize now tm t p c).2 →
      e ∈ c ∨ e.2.2 = now) := by
    refine @FSNode.rec
      (fun t => ∀ p c e, e ∈ (calculateDirSize now tm t p c).2 → e ∈ c ∨ e.2.2 = now)
      (fun cs => ∀ p c e, e ∈ (childrenSizes now tm cs p c).2 → e ∈ c ∨ e.2.2 = now)
      ?_ ?_ ?_ ?_ ?_
    · intro sz ok m p c e he
      rcases calculateDirSize_cases now tm (.file sz ok m) p c with ⟨v, ts, _, _, heq⟩ | heq <;>
        rw [heq] at he
      · exact Or.inl he
      · simp only [calcFresh] at he
        exact Or.inl he
    · intro mt ok rd cs ih p c e he
      rcases calculateDirSize_cases now tm (.dir mt ok rd cs) p c with ⟨v, ts, _, _, heq⟩ | heq <;>
        rw [heq] at he
      · exact Or.inl he
      · simp only [calcFresh] at he
        by_cases hrd : rd = true
        · subst hrd
          simp only [if_true, cacheSet, List.mem_cons] at he
          rcases he with rfl | he
          · exact Or.inr rfl
          · exact ih p c e he
        · simp only [Bool.not_eq_true] at hrd
          subst hrd
          simp at he
          exact Or.inl he
    · intro ts p c e he
      rcases calculateDirSize_cases now tm (.symlink ts) p c with ⟨v, ts', _, _, heq⟩ | heq <;>
        rw [heq] at he
      · exact Or.inl he
      · simp only [calcFresh] at he
        exact Or.inl he
    · intro p c e he
      simp only [childrenSizes] at he
      exact Or.inl he
    · intro n ch rest ihn ihr p c e he
      cases ch with
      | file sz ok m =>
          simp only [childrenSizes] at he
          exact ihr p c e he
      | symlink ts =>
          simp only [childrenSizes] at he
          exact ihr p c e he
      | dir mt ok rd cs2 =>
          rw [childrenSizes_cons_dir] at he
          simp only at he
          rcases ihr p _ e he with hmem | hnow
          · exact (ihn (p ++ [n]) c e hmem).imp id id
          · exact Or.inr hnow
  exact main

theorem calc_hit {now tm : Nat} {t : FSNode} {p : List String} {c : SizeCache} {v ts : Nat}
    (hl : cacheLookup c p = some (v, ts)) (hv : now - ts < tm) :
    calculateDirSize now tm t p c = (v, c) := by
  unfold calculateDirSize
  rw [hl]
  simp [hv]

theorem calc_miss_stale {now tm : Nat} {t : FSNode} {p : List String} {c : SizeCache}
    (h : ∀ v ts, cacheLookup c p = some (v, ts) → ¬ now - ts < tm) :
    calculateDirSize now tm t p c = calcFresh now tm t p c := by
  unfold calculateDirSize
  cases hl : cacheLookup c p with
  | none => rfl
  | some e =>
      obtain ⟨v, ts⟩ := e
      simp [h v ts hl]

theorem calcFresh_dir_readable (now tm : Nat) (mt : Nat) (ok : Bool) (cs : FSChildren)
    (p : List String) (c : SizeCache) :
    calcFresh now tm (.dir mt ok true cs) p c =
      ((childrenSizes now tm cs p c).1,
       cacheSet (childrenSizes now tm cs p c).2 p (childrenSizes now tm cs p c).1 now) := by
  simp [calcFresh]

/-- C2: the size computation consults the cache before recursing — a cached
entry younger than the timeout is returned for any tree (so without reading
the filesystem), a miss or stale entry triggers a recomputation whose result
overwrites the entry with a fresh timestamp; consequently two getSize calls
on the same directory within the timeout return identical values even if the
directory's contents were mutated in between (second call on the mutated
tree fs2 still returns the first call's value), and a call made once the
timeout has elapsed recomputes from the mutated tree (it returns the
cache-free size of the directory now in fs2). -/
theorem sizeCache_policy_and_consistency :
    (∀ (now tm : Nat) (t : FSNode) (p : List String) (c : SizeCache) (v ts : Nat),
      cacheLookup c p = some (v, ts) → now - ts < tm →
      calculateDirSize now tm t p c = (v, c)) ∧
    (∀ (now tm mt : Nat) (ok : Bool) (cs : FSChildren) (p : List String) (c : SizeCache),
      (∀ v ts, cacheLookup c p = some (v, ts) → ¬ now - ts < tm) →
      cacheLookup (calculateDirSize now tm (.dir mt ok true cs) p c).2 p =
        some ((calculateDirSize now tm (.dir mt ok true cs) p c).1, now)) ∧
    (∀ (fs1 fs2 : FSNode) (t0 t1 tm : Nat) (p : List String) (c0 : SizeCache)
      (mt1 mt2 : Nat) (cs1 : FSChildren) (rd2 : Bool) (cs2 : FSChildren),
      FSNode.find p fs1 = some (.dir mt1 true true cs1) →
      FSNode.find p fs2 = some (.dir mt2 true rd2 cs2) →
      (∀ v ts, cacheLookup c0 p = some (v, ts) → ¬ t0 - ts < tm) →
      t1 - t0 < tm →
      (getSize t1 tm (FSNode.find p fs2) p
        (getSize t0 tm (FSNode.find p fs1) p c0).2).1 =
        (getSize t0 tm (FSNode.find p fs1) p c0).1) ∧
    (∀ (fs1 fs2 : FSNode) (t0 t2 tm : Nat) (p : List String)
      (mt1 mt2 : Nat) (cs1 : FSChildren) (rd2 : Bool) (cs2 : FSChildren),
      FSNode.wf fs2 = true →
      FSNode.find p fs1 = some (.dir mt1 true true cs1) →
      FSNode.find p fs2 = some (.dir mt2 true rd2 cs2) →
      tm ≤ t2 - t0 →
      (getSize t2 tm (FSNode.find p fs2) p
        (getSize t0 tm (FSNode.find p fs1) p ([] : SizeCache)).2).1 =
        specDirSize (.dir mt2 true rd2 cs2)) := by
  refine ⟨?_, ?_, ?_, ?_⟩
  · intro now tm t p c v ts hl hv
    exact calc_hit hl hv
  · intro now tm mt ok cs p c hstale
    rw [calc_miss_stale hstale, calcFresh_dir_readable]
    exact cacheLookup_set _ _ _ _
  · intro fs1 fs2 t0 t1 tm p c0 mt1 mt2 cs1 rd2 cs2 h1 h2 hc0 ht
    rw [h1, h2]
    simp only [getSize, if_true]
    rw [calc_miss_stale hc0, calcFresh_dir_readable]
    simp only
    rw [calc_hit (cacheLookup_set _ _ _ _) ht]
  · intro fs1 fs2 t0 t2 tm p mt1 mt2 cs1 rd2 cs2 hwf2 h1 h2 htm
    rw [h1, h2]
    simp only [getSize, if_true]
    have hgood : goodCache fs2 t2 tm
        (calculateDirSize t0 tm (.dir mt1 true true cs1) p ([] : SizeCache)).2 := by
      intro e he
      rcases sizeNode_times t0 tm (.dir mt1 true true cs1) p [] e he with hmem | hts
      · simp at hmem
      · left
        rw [hts]
        omega
    have hwfnode : FSNode.wf (.dir mt2 true rd2 cs2) = true := find_wf p fs2 _ hwf2 h2
    exact (sizeNode_spec fs2 t2 tm (.dir mt2 true rd2 cs2) p _ hwfnode h2 hgood).1

/-- Witness for C2 at a concrete instance: a directory whose single file has
size 5, mutated to size 7 between calls; calls at times 0 and 1000
(within the 60000 ms default timeout) both answer 5, a call at time 60000
answers 7. -/
theorem sizeCache_policy_and_consistency_witness :
    (cacheLookup (cacheSet [] ["d"] 5 0) ["d"] = some (5, 0) ∧ (1000 : Nat) - 0 < 60000) ∧
    (getSize 1000 60000
      (FSNode.find ["d"]
        (.dir 0 true true (.cons "d"
          (.dir 1 true true (.cons "f" (.file 7 true none) .nil)) .nil)))
      ["d"]
      (getSize 0 60000
        (FSNode.find ["d"]
          (.dir 0 true true (.cons "d"
            (.dir 1 true true (.cons "f" (.file 5 true none) .nil)) .nil)))
        ["d"] ([] : SizeCache)).2).1 =
      (getSize 0 60000
        (FSNode.find ["d"]
          (.dir 0 true true (.cons "d"
            (.dir 1 true true (.cons "f" (.file 5 true none) .nil)) .nil)))
        ["d"] ([] : SizeCache)).1 ∧
    (getSize 60000 60000
      (FSNode.find ["d"]
        (.dir 0 true true (.cons "d"
          (.dir 1 true true (.cons "f" (.file 7 true none) .nil)) .nil)))
      ["d"]
      (getSize 0 60000
        (FSNode.find ["d"]
          (.dir 0 true true (.cons "d"
            (.dir 1 true true (.cons "f" (.file 5 true none) .nil)) .nil)))
        ["d"] ([] : SizeCache)).2).1 =
      specDirSize (.dir 1 true true (.cons "f" (.file 7 true none) .nil)) ∧
    (getSize 0 60000
      (FSNode.find ["d"]
        (.dir 0 true true (.cons "d"
          (.dir 1 true true (.cons "f" (.file 5 true none) .nil)) .nil)))
      ["d"] ([] : SizeCache)).1 = 5 ∧
    specDirSize (.dir 1 true true (.cons "f" (.file 7 true none) .nil)) = 7 := by
  refine ⟨⟨by decide, by decide⟩, ?_, ?_, by decide, by decide⟩
  · exact sizeCache_policy_and_consistency.2.2.1
      (.dir 0 true true (.cons "d" (.dir 1 true true (.cons "f" (.file 5 true none) .nil)) .nil))
      (.dir 0 true true (.cons "d" (.dir 1 true true (.cons "f" (.file 7 true none) .nil)) .nil))
      0 1000 60000 ["d"] [] 1 1 (.cons "f" (.file 5 true none) .nil) true
      (.cons "f" (.file 7 true none) .nil)
      rfl rfl
      (by intro v ts h; simp [cacheLookup, List.find?_nil] at h) (by decide)
  · exact sizeCache_policy_and_consistency.2.2.2
      (.dir 0 true true (.cons "d" (.dir 1 true true (.cons "f" (.file 5 true none) .nil)) .nil))
      (.dir 0 true true (.cons "d" (.dir 1 true true (.cons "f" (.file 7 true none) .nil)) .nil))
      0 60000 60000 ["d"] 1 1 (.cons "f" (.file 5 true none) .nil) true
      (.cons "f" (.file 7 true none) .nil)
      (by decide) rfl rfl (by decide)

/-- C8: in a directory-size computation an entry whose stat fails
contributes zero, a broken symlink contributes zero (no raise), a statted
symlink contributes its target's size, an unreadable subdirectory
contributes zero without aborting the enclosing computation, and the total
returned by `calculateDirSize` (run against an empty cache) is exactly the
entrywise sum under this policy. -/
theorem sizeCalculator_error_policy :
    (∀ (sz : Nat) (m : Option PkgManifest), specEntrySize (.file sz false m) = 0) ∧
    (∀ (sz : Nat) (m : Option PkgManifest), specEntrySize (.file sz true m) = sz) ∧
    specEntrySize (.symlink none) = 0 ∧
    (∀ s : Nat, specEntrySize (.symlink (some s)) = s) ∧
    (∀ (mt : Nat) (ok : Bool) (cs : FSChildren), specEntrySize (.dir mt ok false cs) = 0) ∧
    (∀ (n : String) (ch : FSNode) (rest : FSChildren),
      specChildrenSize (.cons n ch rest) = specEntrySize ch + specChildrenSize rest) ∧
    (∀ (mt : Nat) (ok : Bool) (cs : FSChildren),
      specDirSize (.dir mt ok true cs) = specChildrenSize cs) ∧
    (∀ (now tm : Nat) (t : FSNode), FSNode.wf t = true →
      (calculateDirSize now tm t [] ([] : SizeCache)).1 = specDirSize t) := by
  refine ⟨fun sz m => by simp [specEntrySize], fun sz m => by simp [specEntrySize],
    by simp [specEntrySize], fun s => by simp [specEntrySize],
    fun mt ok cs => by simp [specEntrySize],
    fun n ch rest => by simp [specChildrenSize],
    fun mt ok cs => by simp [specDirSize, specEntrySize], ?_⟩
  intro now tm t hwf
  have hgood : goodCache t now tm ([] : SizeCache) := by
    intro e he
    simp at he
  exact (sizeNode_spec t now tm t [] [] hwf rfl hgood).1

/-- Witness for C8: a directory holding an intact file (5), a stat-failing
file, a broken symlink, a symlink with a statted target (3) and an
unreadable subdirectory that itself contains a large file; the computed size
is 5 + 0 + 0 + 3 + 0 = 8. -/
theorem sizeCalculator_error_policy_witness :
    FSNode.wf (.dir 0 true true (.cons "a" (.file 5 true none)
      (.cons "b" (.file 9 false none)
        (.cons "c" (.symlink none)
          (.cons "d" (.symlink (some 3))
            (.cons "e" (.dir 0 true false (.cons "big" (.file 100 true none) .nil))
              .nil)))))) = true ∧
    (calculateDirSize 0 60000
      (.dir 0 true true (.cons "a" (.file 5 true none)
        (.cons "b" (.file 9 false none)
          (.cons "c" (.symlink none)
            (.cons "d" (.symlink (some 3))
              (.cons "e" (.dir 0 true false (.cons "big" (.file 100 true none) .nil))
                .nil))))))
      [] ([] : SizeCache)).1 =
      specDirSize (.dir 0 true true (.cons "a" (.file 5 true none)
        (.cons "b" (.file 9 false none)
          (.cons "c" (.symlink none)
            (.cons "d" (.symlink (some 3))
              (.cons "e" (.dir 0 true false (.cons "big" (.file 100 true none) .nil))
                .nil)))))) ∧
    (calculateDirSize 0 60000
      (.dir 0 true true (.cons "a" (.file 5 true none)
        (.cons "b" (.file 9 false none)
          (.cons "c" (.symlink none)
            (.cons "d" (.symlink (some 3))
              (.cons "e" (.dir 0 true false (.cons "big" (.file 100 true none) .nil))
                .nil))))))
      [] ([] : SizeCache)).1 = 8 := by
  refine ⟨by decide, ?_, by decide⟩
  exact sizeCalculator_error_policy.2.2.2.2.2.2.2 0 60000 _ (by decide)

/-! ## The walker meets its visited-free denotation -/

/-- On a well-formed tree the visited set of `walk` never fires (each call
site holds a fresh path), so the traversal equals its visited-free
denotation; moreover every path the walk adds to the visited set lies below
the path it was called on. -/
theorem walkNode_pure (rootStr : String) (ih : Bool) (pats : List String) (m : Nat) :
    ∀ t : FSNode, ∀ p depth st, FSNode.wf t = true →
      (∀ q ∈ st.visited, ¬ pathPrefix p q) →
      (walkNode rootStr ih pats m t p depth st).results =
        st.results ++ walkPureNode (shouldExclude rootStr ih pats) m t p depth ∧
      ∃ nv, (walkNode rootStr ih pats m t p depth st).visited = nv ++ st.visited ∧
        ∀ q ∈ nv, pathPrefix p q := by
  have main : ∀ t : FSNode, (∀ p depth st, FSNode.wf t = true →
      (∀ q ∈ st.visited, ¬ pathPrefix p q) →
      (walkNode rootStr ih pats m t p depth st).results =
        st.results ++ walkPureNode (shouldExclude rootStr ih pats) m t p depth ∧
      ∃ nv, (walkNode rootStr ih pats m t p depth st).visited = nv ++ st.visited ∧
        ∀ q ∈ nv, pathPrefix p q) := by
    refine @FSNode.rec
      (fun t => ∀ p depth st, FSNode.wf t = true →
        (∀ q ∈ st.visited, ¬ pathPrefix p q) →
        (walkNode rootStr ih pats m t p depth st).results =
          st.results ++ walkPureNode (shouldExclude rootStr ih pats) m t p depth ∧
        ∃ nv, (walkNode rootStr ih pats m t p depth st).visited = nv ++ st.visited ∧
          ∀ q ∈ nv, pathPrefix p q)
      (fun cs => ∀ p depth st, FSChildren.wfAll cs = true → cs.names.Nodup →
        (∀ q ∈ st.visited, ∀ x ∈ cs.toList, ¬ pathPrefix (p ++ [x.1]) q) →
        (walkEntries rootStr ih pats m cs p depth st).results =
          st.results ++ walkPureEntries (shouldExclude rootStr ih pats) m cs p depth ∧
        ∃ nv, (walkEntries rootStr ih pats m cs p depth st).visited = nv ++ st.visited ∧
          ∀ q ∈ nv, ∃ x ∈ cs.toList, pathPrefix (p ++ [x.1]) q)
      ?_ ?_ ?_ ?_ ?_
    · -- file
      intro sz ok mf p depth st _ hfresh
      by_cases hd : depth > (if m = 0 then 10 else m)
      · simp [walkNode, walkPureNode, hd]
      · have hnv : ¬ p ∈ st.visited := fun hmem => hfresh p hmem (pathPrefix_refl p)
        simp only [walkNode, walkPureNode, if_neg hd, if_neg hnv]
        exact ⟨by simp, ⟨[p], by simp, by simp [pathPrefix_refl]⟩⟩
    · -- dir
      intro mt ok rd cs ihcs p depth st hwf hfresh
      by_cases hd : depth > (if m = 0 then 10 else m)
      · simp [walkNode, walkPureNode, hd]
      · have hnv : ¬ p ∈ st.visited := fun hmem => hfresh p hmem (pathPrefix_refl p)
        by_cases hrd : rd = true
        · subst hrd
          have hfresh2 : ∀ q ∈ (⟨p :: st.visited, st.results⟩ : WalkState).visited,
              ∀ x ∈ cs.toList, ¬ pathPrefix (p ++ [x.1]) q := by
            intro q hq x hx
            simp only [List.mem_cons] at hq
            rcases hq with rfl | hq
            · exact not_pathPrefix_snoc_self
            · exact fun hpre => hfresh q hq (pathPrefix_of_snoc hpre)
          obtain ⟨hres, nv, hvis, hnvall⟩ :=
            ihcs p depth ⟨p :: st.visited, st.results⟩ (wf_dir_all hwf) (wf_dir_nodup hwf)
              hfresh2
          simp only [walkNode, walkPureNode, if_neg hd, if_neg hnv]
          refine ⟨by simpa using hres, ⟨nv ++ [p], ?_, ?_⟩⟩
          · simpa using hvis
          · intro q hq
            rcases List.mem_append.mp hq with hq | hq
            · obtain ⟨x, _, hpre⟩ := hnvall q hq
              exact pathPrefix_of_snoc hpre
            · simp only [List.mem_singleton] at hq
              subst hq
              exact pathPrefix_refl q
        · simp only [Bool.not_eq_true] at hrd
          subst hrd
          simp only [walkNode, walkPureNode, if_neg hd, if_neg hnv]
          exact ⟨by simp, ⟨[p], by simp, by simp [pathPrefix_refl]⟩⟩
    · -- symlink
      intro ts p depth st _ hfresh
      by_cases hd : depth > (if m = 0 then 10 else m)
      · simp [walkNode, walkPureNode, hd]
      · have hnv : ¬ p ∈ st.visited := fun hmem => hfresh p hmem (pathPrefix_refl p)
        simp only [walkNode, walkPureNode, if_neg hd, if_neg hnv]
        exact ⟨by simp, ⟨[p], by simp, by simp [pathPrefix_refl]⟩⟩
    · -- nil
      intro p depth st _ _ _
      simp only [walkEntries, walkPureEntries]
      exact ⟨by simp, ⟨[], by simp, by simp⟩⟩
    · -- cons
      intro n ch rest ihn ihr p depth st hwf hnd hfresh
      have hwf1 : FSNode.wf ch = true := by
        simp only [FSChildren.wfAll, Bool.and_eq_true] at hwf
        exact hwf.1
      have hwf2 : FSChildren.wfAll rest = true := by
        simp only [FSChildren.wfAll, Bool.and_eq_true] at hwf
        exact hwf.2
      have hnd1 : ¬ n ∈ rest.names := by
        simp only [FSChildren.names, List.nodup_cons] at hnd
        exact hnd.1
      have hnd2 : rest.names.Nodup := by
        simp only [FSChildren.names, List.nodup_cons] at hnd
        exact hnd.2
      have hfreshrest : ∀ (st2 : WalkState), st2.visited = st.visited →
          ∀ q ∈ st2.visited, ∀ x ∈ rest.toList, ¬ pathPrefix (p ++ [x.1]) q := by
        intro st2 hv q hq x hx
        rw [hv] at hq
        exact hfresh q hq x (by simp [FSChildren.toList, hx])
      cases ch with
      | file sz ok mf =>
          simp only [walkEntries, walkPureEntries]
          obtain ⟨hres, nv, hvis, hnvall⟩ :=
            ihr p depth st hwf2 hnd2 (hfreshrest st rfl)
          refine ⟨by simpa using hres, ⟨nv, hvis, ?_⟩⟩
          intro q hq
          obtain ⟨x, hx, hpre⟩ := hnvall q hq
          exact ⟨x, by simp [FSChildren.toList, hx], hpre⟩
      | symlink ts =>
          simp only [walkEntries, walkPureEntries]
          obtain ⟨hres, nv, hvis, hnvall⟩ :=
            ihr p depth st hwf2 hnd2 (hfreshrest st rfl)
          refine ⟨by simpa using hres, ⟨nv, hvis, ?_⟩⟩
          intro q hq
          obtain ⟨x, hx, hpre⟩ := hnvall q hq
          exact ⟨x, by simp [FSChildren.toList, hx], hpre⟩
      | dir mt ok rd cs2 =>
          by_cases hex : shouldExclude rootStr ih pats (p ++ [n]) = true
          · simp only [walkEntries, walkPureEntries, hex, if_true]
            obtain ⟨hres, nv, hvis, hnvall⟩ :=
              ihr p depth st hwf2 hnd2 (hfreshrest st rfl)
            refine ⟨by simpa using hres, ⟨nv, hvis, ?_⟩⟩
            intro q hq
            obtain ⟨x, hx, hpre⟩ := hnvall q hq
            exact ⟨x, by simp [FSChildren.toList, hx], hpre⟩
          · by_cases hmk : n = "node_modules"
            · subst hmk
              simp only [walkEntries, walkPureEntries, hex, if_false, if_true]
              obtain ⟨hres, nv, hvis, hnvall⟩ :=
                ihr p depth ⟨st.visited, st.results ++ [p ++ ["node_modules"]]⟩ hwf2 hnd2
                  (hfreshrest _ rfl)
              rw [Bool.not_eq_true] at hex
              simp only [hex, Bool.false_eq_true, if_false, ↓reduceIte]
              refine ⟨by simpa using hres, ⟨nv, by simpa using hvis, ?_⟩⟩
              intro q hq
              obtain ⟨x, hx, hpre⟩ := hnvall q hq
              exact ⟨x, by simp [FSChildren.toList, hx], hpre⟩
            · -- recurse into the child
              obtain ⟨hres1, nv1, hvis1, hnv1⟩ :=
                ihn (p ++ [n]) (depth + 1) st hwf1 (by
                  intro q hq
                  exact hfresh q hq (n, .dir mt ok rd cs2) (by simp [FSChildren.toList]))
              have hfresh3 : ∀ q ∈ (walkNode rootStr ih pats m (.dir mt ok rd cs2)
                  (p ++ [n]) (depth + 1) st).visited, ∀ x ∈ rest.toList,
                  ¬ pathPrefix (p ++ [x.1]) q := by
                intro q hq x hx hpre
                rw [hvis1] at hq
                rcases List.mem_append.mp hq with hq | hq
                · have hxe := pathPrefix_snoc_inj hpre (hnv1 q hq)
                  have hxn := names_of_mem rest x hx
                  rw [hxe] at hxn
                  exact hnd1 hxn
                · exact hfresh q hq x (by simp [FSChildren.toList, hx]) hpre
              obtain ⟨hres2, nv2, hvis2, hnv2⟩ :=
                ihr p depth _ hwf2 hnd2 hfresh3
              simp only [walkEntries, walkPureEntries, hex, hmk, if_false]
              rw [Bool.not_eq_true] at hex
              simp only [hex, Bool.false_eq_true, if_false, ↓reduceIte, hmk]
              refine ⟨?_, ⟨nv2 ++ nv1, ?_, ?_⟩⟩
              · rw [hres2, hres1]
                simp
              · rw [hvis2, hvis1]
                simp
              · intro q hq
                rcases List.mem_append.mp hq with hq | hq
                · obtain ⟨x, hx, hpre⟩ := hnv2 q hq
                  exact ⟨x, by simp [FSChildren.toList, hx], hpre⟩
                · exact ⟨(n, .dir mt ok rd cs2), by simp [FSChildren.toList], hnv1 q hq⟩
  exact main

theorem pathPrefix_trans {a b c : List String} (h1 : pathPrefix a b) (h2 : pathPrefix b c) :
    pathPrefix a c := by
  rcases h1 with ⟨r1, rfl⟩
  rcases h2 with ⟨r2, rfl⟩
  exact ⟨r1 ++ r2, by simp⟩

theorem findNodeModules_pure (t : FSNode) (rootStr : String) (opts : ScanOptions)
    (hwf : FSNode.wf t = true) :
    findNodeModules (some t) rootStr opts =
      walkPureNode (shouldExclude rootStr opts.includeHidden opts.excludePaths)
        opts.maxDepth t [] 0 := by
  have h := walkNode_pure rootStr opts.includeHidden opts.excludePaths opts.maxDepth t [] 0
    ⟨[], []⟩ hwf (by intro q hq; simp [WalkState.visited] at hq)
  simpa [findNodeModules] using h.1

/-- Every emitted path ends in the install-root marker, with no marker
anywhere on the way from the walk's start. -/
theorem walkPure_shape (excl : List String → Bool) (m : Nat) :
    ∀ t : FSNode, ∀ p depth r, r ∈ walkPureNode excl m t p depth →
      ∃ mid, r = p ++ mid ++ ["node_modules"] ∧ ¬ "node_modules" ∈ mid := by
  have main : ∀ t : FSNode, (∀ p depth r, r ∈ walkPureNode excl m t p depth →
      ∃ mid, r = p ++ mid ++ ["node_modules"] ∧ ¬ "node_modules" ∈ mid) := by
    refine @FSNode.rec
      (fun t => ∀ p depth r, r ∈ walkPureNode excl m t p depth →
        ∃ mid, r = p ++ mid ++ ["node_modules"] ∧ ¬ "node_modules" ∈ mid)
      (fun cs => ∀ p depth r, r ∈ walkPureEntries excl m cs p depth →
        ∃ mid, r = p ++ mid ++ ["node_modules"] ∧ ¬ "node_modules" ∈ mid)
      ?_ ?_ ?_ ?_ ?_
    · intro sz ok mf p depth r hr
      simp [walkPureNode] at hr
    · intro mt ok rd cs ihcs p depth r hr
      by_cases hd : depth > (if m = 0 then 10 else m)
      · simp [walkPureNode, hd] at hr
      · by_cases hrd : rd = true
        · subst hrd
          simp only [walkPureNode, if_neg hd, if_true] at hr
          exact ihcs p depth r hr
        · simp only [Bool.not_eq_true] at hrd
          subst hrd
          simp [walkPureNode, hd] at hr
    · intro ts p depth r hr
      simp [walkPureNode] at hr
    · intro p depth r hr
      simp [walkPureEntries] at hr
    · intro n ch rest ihn ihr p depth r hr
      simp only [walkPureEntries, List.mem_append] at hr
      rcases hr with hr | hr
      · cases ch with
        | file sz ok mf => simp at hr
        | symlink ts => simp at hr
        | dir mt ok rd cs2 =>
            simp only at hr
            split at hr
            · simp at hr
            · split at hr
              · simp only [List.mem_singleton] at hr
                subst hr
                rename_i hmk
                exact ⟨[], by simp [hmk], by simp⟩
              · obtain ⟨mid, hmid, hnm⟩ := ihn (p ++ [n]) (depth + 1) r hr
                rename_i hmk
                refine ⟨n :: mid, by simpa using hmid, ?_⟩
                simp only [List.mem_cons, not_or]
                exact ⟨fun h => hmk h.symm, hnm⟩
      · exact ihr p depth r hr
  exact main

/-- Emitted paths stay within one level of the effective depth bound. -/
theorem walkPure_depth_bound (excl : List String → Bool) (m : Nat) :
    ∀ t : FSNode, ∀ p depth r, r ∈ walkPureNode excl m t p depth →
      r.length + depth ≤ p.length + (if m = 0 then 10 else m) + 1 := by
  have main : ∀ t : FSNode, (∀ p depth r, r ∈ walkPureNode excl m t p depth →
      r.length + depth ≤ p.length + (if m = 0 then 10 else m) + 1) := by
    refine @FSNode.rec
      (fun t => ∀ p depth r, r ∈ walkPureNode excl m t p depth →
        r.length + depth ≤ p.length + (if m = 0 then 10 else m) + 1)
      (fun cs => ∀ p depth r, depth ≤ (if m = 0 then 10 else m) →
        r ∈ walkPureEntries excl m cs p depth →
        r.length + depth ≤ p.length + (if m = 0 then 10 else m) + 1)
      ?_ ?_ ?_ ?_ ?_
    · intro sz ok mf p depth r hr
      simp [walkPureNode] at hr
    · intro mt ok rd cs ihcs p depth r hr
      by_cases hd : depth > (if m = 0 then 10 else m)
      · simp [walkPureNode, hd] at hr
      · by_cases hrd : rd = true
        · subst hrd
          simp only [walkPureNode, if_neg hd, if_true] at hr
          exact ihcs p depth r (by omega) hr
        · simp only [Bool.not_eq_true] at hrd
          subst hrd
          simp [walkPureNode, hd] at hr
    · intro ts p depth r hr
      simp [walkPureNode] at hr
    · intro p depth r _ hr
      simp [walkPureEntries] at hr
    · intro n ch rest ihn ihr p depth r hd hr
      simp only [walkPureEntries, List.mem_append] at hr
      rcases hr with hr | hr
      · cases ch with
        | file sz ok mf => simp at hr
        | symlink ts => simp at hr
        | dir mt ok rd cs2 =>
            simp only at hr
            split at hr
            · simp at hr
            · split at hr
              · simp only [List.mem_singleton] at hr
                subst hr
                simp only [List.length_append, List.length_singleton]
                omega
              · have := ihn (p ++ [n]) (depth + 1) r hr
                simp only [List.length_append, List.length_singleton] at this
                omega
      · exact ihr p depth r hd hr
  exact main

/-- A deeper bound explores a superset of the tree (for positive bounds,
which are what the fallback `maxDepth || 10` leaves possible above zero). -/
theorem walkPure_mono (excl : List String → Bool) (m1 m2 : Nat) (hm1 : 1 ≤ m1)
    (hm12 : m1 ≤ m2) :
    ∀ t : FSNode, ∀ p depth r, r ∈ walkPureNode excl m1 t p depth →
      r ∈ walkPureNode excl m2 t p depth := by
  have heff : (if m1 = 0 then 10 else m1) ≤ (if m2 = 0 then 10 else m2) := by
    have h1 : ¬ m1 = 0 := by omega
    have h2 : ¬ m2 = 0 := by omega
    simp [h1, h2, hm12]
  have main : ∀ t : FSNode, (∀ p depth r, r ∈ walkPureNode excl m1 t p depth →
      r ∈ walkPureNode excl m2 t p depth) := by
    refine @FSNode.rec
      (fun t => ∀ p depth r, r ∈ walkPureNode excl m1 t p depth →
        r ∈ walkPureNode excl m2 t p depth)
      (fun cs => ∀ p depth r, r ∈ walkPureEntries excl m1 cs p depth →
        r ∈ walkPureEntries excl m2 cs p depth)
      ?_ ?_ ?_ ?_ ?_
    · intro sz ok mf p depth r hr
      simp [walkPureNode] at hr
    · intro mt ok rd cs ihcs p depth r hr
      by_cases hd : depth > (if m1 = 0 then 10 else m1)
      · simp [walkPureNode, hd] at hr
      · have hd2 : ¬ depth > (if m2 = 0 then 10 else m2) := by omega
        by_cases hrd : rd = true
        · subst hrd
          simp only [walkPureNode, if_neg hd, if_true] at hr
          simp only [walkPureNode, if_neg hd2, if_true]
          exact ihcs p depth r hr
        · simp only [Bool.not_eq_true] at hrd
          subst hrd
          simp [walkPureNode, hd] at hr
    · intro ts p depth r hr
      simp [walkPureNode] at hr
    · intro p depth r hr
      simp [walkPureEntries] at hr
    · intro n ch rest ihn ihr p depth r hr
      simp only [walkPureEntries, List.mem_append] at hr ⊢
      rcases hr with hr | hr
      · left
        cases ch with
        | file sz ok mf => simp at hr
        | symlink ts => simp at hr
        | dir mt ok rd cs2 =>
            simp only at hr ⊢
            split at hr
            · simp at hr
            · rename_i hex
              rw [if_neg hex]
              split at hr
              · rename_i hmk
                rwa [if_pos hmk]
              · rename_i hmk
                rw [if_neg hmk]
                exact ihn (p ++ [n]) (depth + 1) r hr
      · exact Or.inr (ihr p depth r hr)
  exact main

/-! ## Descriptor construction meets its cache-free denotation -/

theorem getPackageInfo_pure (root : FSNode) (now tm : Nat) (ch : FSNode)
    (pkgPath : List String) (pkgName : String) (c : SizeCache)
    (hwf : FSNode.wf ch = true) (hf : FSNode.find pkgPath root = some ch)
    (hg : goodCache root now tm c) :
    (getPackageInfo now tm ch pkgPath pkgName c).1 = pureGetPackageInfo ch pkgPath pkgName ∧
    goodCache root now tm (getPackageInfo now tm ch pkgPath pkgName c).2 := by
  cases ch with
  | file sz ok mf => exact ⟨rfl, hg⟩
  | symlink ts => exact ⟨rfl, hg⟩
  | dir mt ok rd cs =>
      simp only [getPackageInfo, pureGetPackageInfo]
      cases hlc : lookupChild cs "package.json" with
      | none => exact ⟨rfl, hg⟩
      | some mchild =>
          cases mchild with
          | file s2 ok2 mf2 =>
              cases mf2 with
              | none => exact ⟨rfl, hg⟩
              | some j =>
                  obtain ⟨hv, hgood⟩ :=
                    sizeNode_spec root now tm (.dir mt ok rd cs) pkgPath c hwf hf hg
                  simp only [hv]
                  exact ⟨by simp [specDirSize], hgood⟩
          | symlink ts2 => exact ⟨rfl, hg⟩
          | dir mt2 ok2 rd2 cs2 => exact ⟨rfl, hg⟩

theorem scopedPackages_pure (root : FSNode) (now tm : Nat) :
    ∀ (cs : FSChildren) (scopePath : List String) (scopeName : String) (c : SizeCache),
      FSChildren.wfAll cs = true →
      (∀ x ∈ cs.toList, FSNode.find (scopePath ++ [x.1]) root = some x.2) →
      goodCache root now tm c →
      (scopedPackages now tm cs scopePath scopeName c).1 =
        pureScopedPackages cs scopePath scopeName ∧
      goodCache root now tm (scopedPackages now tm cs scopePath scopeName c).2
  | .nil, scopePath, scopeName, c, _, _, hg => ⟨rfl, hg⟩
  | .cons n2 ch2 rest, scopePath, scopeName, c, hwf, hfind, hg => by
      have hwf1 : FSNode.wf ch2 = true := by
        simp only [FSChildren.wfAll, Bool.and_eq_true] at hwf
        exact hwf.1
      have hwf2 : FSChildren.wfAll rest = true := by
        simp only [FSChildren.wfAll, Bool.and_eq_true] at hwf
        exact hwf.2
      have hfhead : FSNode.find (scopePath ++ [n2]) root = some ch2 :=
        hfind (n2, ch2) (by simp [FSChildren.toList])
      have hfrest : ∀ x ∈ rest.toList, FSNode.find (scopePath ++ [x.1]) root = some x.2 :=
        fun x hx => hfind x (by simp [FSChildren.toList, hx])
      simp only [scopedPackages, pureScopedPackages]
      cases ch2 with
      | file sz ok mf =>
          obtain ⟨hv, hgood⟩ := scopedPackages_pure root now tm rest scopePath scopeName c
            hwf2 hfrest hg
          exact ⟨by simp [hv], hgood⟩
      | symlink ts =>
          obtain ⟨hv, hgood⟩ := scopedPackages_pure root now tm rest scopePath scopeName c
            hwf2 hfrest hg
          exact ⟨by simp [hv], hgood⟩
      | dir mt ok rd cs2 =>
          obtain ⟨hv1, hg1⟩ := getPackageInfo_pure root now tm (.dir mt ok rd cs2)
            (scopePath ++ [n2]) (scopeName ++ "/" ++ n2) c hwf1 hfhead hg
          obtain ⟨hv2, hg2⟩ := scopedPackages_pure root now tm rest scopePath scopeName
            (getPackageInfo now tm (.dir mt ok rd cs2) (scopePath ++ [n2])
              (scopeName ++ "/" ++ n2) c).2 hwf2 hfrest hg1
          refine ⟨?_, hg2⟩
          rw [hv2, hv1]
          cases pureGetPackageInfo (.dir mt ok rd cs2) (scopePath ++ [n2])
            (scopeName ++ "/" ++ n2) <;> simp [Option.toList]

theorem packagesOf_pure (root : FSNode) (now tm : Nat) :
    ∀ (cs : FSChildren) (nmPath : List String) (c : SizeCache),
      FSChildren.wfAll cs = true →
      (∀ x ∈ cs.toList, FSNode.find (nmPath ++ [x.1]) root = some x.2) →
      goodCache root now tm c →
      (packagesOf now tm cs nmPath c).1 = purePackagesOf cs nmPath ∧
      goodCache root now tm (packagesOf now tm cs nmPath c).2
  | .nil, nmPath, c, _, _, hg => ⟨rfl, hg⟩
  | .cons n ch rest, nmPath, c, hwf, hfind, hg => by
      have hwf1 : FSNode.wf ch = true := by
        simp only [FSChildren.wfAll, Bool.and_eq_true] at hwf
        exact hwf.1
      have hwf2 : FSChildren.wfAll rest = true := by
        simp only [FSChildren.wfAll, Bool.and_eq_true] at hwf
        exact hwf.2
      have hfhead : FSNode.find (nmPath ++ [n]) root = some ch :=
        hfind (n, ch) (by simp [FSChildren.toList])
      have hfrest : ∀ x ∈ rest.toList, FSNode.find (nmPath ++ [x.1]) root = some x.2 :=
        fun x hx => hfind x (by simp [FSChildren.toList, hx])
      simp only [packagesOf, purePackagesOf]
      cases ch with
      | file sz ok mf =>
          obtain ⟨hv, hgood⟩ := packagesOf_pure root now tm rest nmPath c hwf2 hfrest hg
          exact ⟨by simp [hv], hgood⟩
      | symlink ts =>
          obtain ⟨hv, hgood⟩ := packagesOf_pure root now tm rest nmPath c hwf2 hfrest hg
          exact ⟨by simp [hv], hgood⟩
      | dir mt ok rd cs2 =>
          by_cases hdot : listStartsWith n.toList ['.'] = true
          · simp only [hdot, if_true]
            obtain ⟨hv, hgood⟩ := packagesOf_pure root now tm rest nmPath c hwf2 hfrest hg
            exact ⟨by simp [hv], hgood⟩
          · by_cases hat : listStartsWith n.toList ['@'] = true
            · simp only [hdot, hat, if_true, if_false, Bool.false_eq_true]
              by_cases hrd : rd = true
              · subst hrd
                have hnd2 : cs2.names.Nodup := wf_dir_nodup hwf1
                have hfind2 : ∀ x ∈ cs2.toList,
                    FSNode.find ((nmPath ++ [n]) ++ [x.1]) root = some x.2 := by
                  intro x hx
                  exact find_child hfhead hnd2 (by
                    obtain ⟨x1, x2⟩ := x
                    exact hx)
                obtain ⟨hv1, hg1⟩ := scopedPackages_pure root now tm cs2 (nmPath ++ [n]) n c
                  (wf_dir_all hwf1) hfind2 hg
                obtain ⟨hv2, hg2⟩ := packagesOf_pure root now tm rest nmPath _ hwf2 hfrest hg1
                exact ⟨by simp [hv1, hv2], hg2⟩
              · simp only [Bool.not_eq_true] at hrd
                subst hrd
                obtain ⟨hv, hgood⟩ := packagesOf_pure root now tm rest nmPath c hwf2 hfrest hg
                simp only [Bool.false_eq_true, if_false]
                exact ⟨by simp [hv], hgood⟩
            · simp only [hdot, hat, if_false, Bool.false_eq_true]
              obtain ⟨hv1, hg1⟩ := getPackageInfo_pure root now tm (.dir mt ok rd cs2)
                (nmPath ++ [n]) n c hwf1 hfhead hg
              obtain ⟨hv2, hg2⟩ := packagesOf_pure root now tm rest nmPath _ hwf2 hfrest hg1
              refine ⟨?_, hg2⟩
              rw [hv2, hv1]
              cases pureGetPackageInfo (.dir mt ok rd cs2) (nmPath ++ [n]) n <;>
                simp [Option.toList]

theorem scanSingle_pure (root : FSNode) (rootStr : String) (p : List String)
    (now tm : Nat) (c : SizeCache) (hwf : FSNode.wf root = true)
    (hg : goodCache root now tm c) :
    (scanSingleNodeModules root rootStr p now tm c).1 = pureScanSingle root rootStr p ∧
    goodCache root now tm (scanSingleNodeModules root rootStr p now tm c).2 := by
  simp only [scanSingleNodeModules, pureScanSingle]
  cases hf : FSNode.find p root with
  | none => exact ⟨by trivial, hg⟩
  | some nm =>
      cases nm with
      | file sz ok mf => exact ⟨by trivial, hg⟩
      | symlink ts => exact ⟨by trivial, hg⟩
      | dir mtime ok rd cs =>
          by_cases hok : ok = true
          · subst hok
            simp only [if_true]
            have hwfnm : FSNode.wf (.dir mtime true rd cs) = true := find_wf p root _ hwf hf
            obtain ⟨hv1, hg1⟩ := sizeNode_spec root now tm (.dir mtime true rd cs) p c
              hwfnm hf hg
            have hpkg : (getPackages now tm (.dir mtime true rd cs) p
                (calculateDirSize now tm (.dir mtime true rd cs) p c).2).1 =
                pureGetPackages (.dir mtime true rd cs) p ∧
                goodCache root now tm (getPackages now tm (.dir mtime true rd cs) p
                  (calculateDirSize now tm (.dir mtime true rd cs) p c).2).2 := by
              simp only [getPackages, pureGetPackages]
              by_cases hrd : rd = true
              · subst hrd
                simp only [if_true]
                have hfind2 : ∀ x ∈ cs.toList, FSNode.find (p ++ [x.1]) root = some x.2 := by
                  intro x hx
                  exact find_child hf (wf_dir_nodup hwfnm) (by
                    obtain ⟨x1, x2⟩ := x
                    exact hx)
                exact packagesOf_pure root now tm cs p _ (wf_dir_all hwfnm) hfind2 hg1
              · simp only [Bool.not_eq_true] at hrd
                subst hrd
                simp only [Bool.false_eq_true, if_false]
                exact ⟨by trivial, hg1⟩
            refine ⟨?_, hpkg.2⟩
            simp only [hv1, hpkg.1]
          · simp only [Bool.not_eq_true] at hok
            subst hok
            simp only [Bool.false_eq_true, if_false]
            exact ⟨by trivial, hg⟩

theorem scanParallel_pure (root : FSNode) (rootStr : String)
    (hwf : FSNode.wf root = true) :
    ∀ (paths : List (List String)) (now tm : Nat) (c : SizeCache),
      goodCache root now tm c →
      (scanParallel root rootStr paths now tm c).1 =
        paths.filterMap (pureScanSingle root rootStr) ∧
      goodCache root now tm (scanParallel root rootStr paths now tm c).2
  | [], now, tm, c, hg => ⟨rfl, hg⟩
  | p :: rest, now, tm, c, hg => by
      obtain ⟨hv1, hg1⟩ := scanSingle_pure root rootStr p now tm c hwf hg
      obtain ⟨hv2, hg2⟩ := scanParallel_pure root rootStr hwf rest now tm _ hg1
      simp only [scanParallel, List.filterMap_cons]
      refine ⟨?_, hg2⟩
      rw [hv2, hv1]
      cases pureScanSingle root rootStr p <;> simp

theorem scanSequential_pure (root : FSNode) (rootStr : String)
    (hwf : FSNode.wf root = true) :
    ∀ (paths : List (List String)) (now tm : Nat) (c : SizeCache),
      goodCache root now tm c →
      (scanSequential root rootStr paths now tm c).1 =
        paths.filterMap (pureScanSingle root rootStr) ∧
      goodCache root now tm (scanSequential root rootStr paths now tm c).2
  | [], now, tm, c, hg => ⟨rfl, hg⟩
  | p :: rest, now, tm, c, hg => by
      obtain ⟨hv1, hg1⟩ := scanSingle_pure root rootStr p now tm c hwf hg
      obtain ⟨hv2, hg2⟩ := scanSequential_pure root rootStr hwf rest now tm _ hg1
      simp only [scanSequential, List.filterMap_cons]
      refine ⟨?_, hg2⟩
      rw [hv2, hv1]
      cases pureScanSingle root rootStr p <;> simp

/-- The scan output is the pure descriptor of each discovered path, in
discovery order, regardless of the parallel flag. -/
theorem scan_pure (root : FSNode) (rootStr : String) (optsIn : ScanOptionsIn)
    (now tm : Nat) (c : SizeCache) (hwf : FSNode.wf root = true)
    (hg : goodCache root now tm c) :
    (scan (some root) rootStr optsIn now tm c).1 =
      (findNodeModules (some root) rootStr (resolveOptions optsIn)).filterMap
        (pureScanSingle root rootStr) := by
  simp only [scan]
  by_cases hpar : (resolveOptions optsIn).parallel = true
  · simp only [hpar, if_true]
    exact (scanParallel_pure root rootStr hwf _ now tm c hg).1
  · simp only [hpar, Bool.false_eq_true, if_false]
    exact (scanSequential_pure root rootStr hwf _ now tm c hg).1

theorem pureScanSingle_path {root : FSNode} {rootStr : String} {p : List String}
    {info : NodeModulesInfo} (h : pureScanSingle root rootStr p = some info) :
    info.path = p := by
  unfold pureScanSingle at h
  split at h
  · split at h
    · injection h with h2
      rw [← h2]
    · exact absurd h (by simp)
  · exact absurd h (by simp)

/-- C6: every directory entry named node_modules is emitted without being
descended into — every discovered path ends in the marker and passes through
no other marker on the way — so no returned path is a strict descendant of
another returned path. -/
theorem scanner_marker_no_descent (t : FSNode) (rootStr : String) (opts : ScanOptions)
    (hwf : FSNode.wf t = true) :
    (∀ r ∈ findNodeModules (some t) rootStr opts,
      ∃ mid, r = mid ++ ["node_modules"] ∧ ¬ "node_modules" ∈ mid) ∧
    (∀ r1 ∈ findNodeModules (some t) rootStr opts,
      ∀ r2 ∈ findNodeModules (some t) rootStr opts,
      r1 ≠ r2 → ¬ pathPrefix r1 r2) := by
  rw [findNodeModules_pure t rootStr opts hwf]
  constructor
  · intro r hr
    obtain ⟨mid, hmid, hnm⟩ := walkPure_shape _ _ t [] 0 r hr
    exact ⟨mid, by simpa using hmid, hnm⟩
  · intro r1 h1 r2 h2 hne hpre
    obtain ⟨m1, hm1, hn1⟩ := walkPure_shape _ _ t [] 0 r1 h1
    obtain ⟨m2, hm2, hn2⟩ := walkPure_shape _ _ t [] 0 r2 h2
    simp only [List.nil_append] at hm1 hm2
    subst hm1
    subst hm2
    rcases hpre with ⟨s, hs⟩
    rcases s with _ | ⟨a, s2⟩
    · exact hne (by simpa using hs)
    · have hlen : m1.length < m2.length := by
        have hl := congrArg List.length hs
        simp [List.length_append] at hl
        omega
      have hg1 : ((m1 ++ ["node_modules"]) ++ (a :: s2)).get? m1.length =
          some "node_modules" := by
        rw [List.append_assoc, List.get?_append_right (le_refl m1.length)]
        simp
      rw [hs, List.get?_append hlen] at hg1
      exact hn2 (List.get?_mem hg1)

/-- Witness for C6 on a tree with two install roots, one of which itself
contains a nested install root that is not emitted. -/
theorem scanner_marker_no_descent_witness :
    findNodeModules (some (.dir 0 true true
      (.cons "pa" (.dir 0 true true
        (.cons "node_modules" (.dir 0 true true
          (.cons "node_modules" (.dir 0 true true .nil) .nil)) .nil))
      (.cons "pb" (.dir 0 true true
        (.cons "node_modules" (.dir 0 true true .nil) .nil)) .nil))))
      "/r" (resolveOptions {}) = [["pa", "node_modules"], ["pb", "node_modules"]] ∧
    ¬ pathPrefix ["pa", "node_modules"] ["pb", "node_modules"] := by
  constructor
  · decide
  · exact (scanner_marker_no_descent (.dir 0 true true
      (.cons "pa" (.dir 0 true true
        (.cons "node_modules" (.dir 0 true true
          (.cons "node_modules" (.dir 0 true true .nil) .nil)) .nil))
      (.cons "pb" (.dir 0 true true
        (.cons "node_modules" (.dir 0 true true .nil) .nil)) .nil)))
      "/r" (resolveOptions {}) (by decide)).2
      ["pa", "node_modules"] (by decide) ["pb", "node_modules"] (by decide) (by decide)

/-- C3 counterexample: with maxDepth 1 the scan still returns a descriptor
two directory levels below the root (the claim says never more than one);
and a scan with maxDepth 0 (which the `maxDepth || 10` fallback turns into
10) returns an install root that the maxDepth 1 scan misses, so the smaller
maxDepth does not yield a subset of the larger. -/
theorem scanner_depth_claim_counterexample :
    ((scan (some (.dir 0 true true (.cons "a" (.dir 0 true true
        (.cons "node_modules" (.dir 5 true true .nil) .nil)) .nil)))
      "/r" { maxDepth := some 1 } 0 60000 []).1.map NodeModulesInfo.path =
      [["a", "node_modules"]] ∧
     (2 : Nat) > 1 ∧ (["a", "node_modules"] : List String).length = 2) ∧
    (["a", "b", "node_modules"] ∈ findNodeModules
      (some (.dir 0 true true (.cons "a" (.dir 0 true true (.cons "b" (.dir 0 true true
        (.cons "node_modules" (.dir 5 true true .nil) .nil)) .nil)) .nil)))
      "/r" (resolveOptions { maxDepth := some 0 }) ∧
     ¬ ["a", "b", "node_modules"] ∈ findNodeModules
      (some (.dir 0 true true (.cons "a" (.dir 0 true true (.cons "b" (.dir 0 true true
        (.cons "node_modules" (.dir 5 true true .nil) .nil)) .nil)) .nil)))
      "/r" (resolveOptions { maxDepth := some 1 }) ∧
     (0 : Nat) ≤ 1) := by
  exact ⟨⟨by decide, by decide, by decide⟩, ⟨by decide, by decide, by decide⟩⟩

/-- C3 amended: every returned descriptor lies at most effectiveMaxDepth + 1
levels below the root (the walker emits marker children of directories at
the boundary depth); for explicit positive bounds m1 ≤ m2 the smaller scan's
paths and descriptors are subsets of the larger's; a walk beyond the
effective bound visits nothing (so recursion into a child happens only when
its depth is within the bound, where an explicit 0 falls back to 10); and
the default maxDepth is 10. -/
theorem scanner_depth_amended :
    (∀ (root : FSNode) (rootStr : String) (optsIn : ScanOptionsIn) (now tm : Nat)
       (c : SizeCache), FSNode.wf root = true → goodCache root now tm c →
       ∀ info ∈ (scan (some root) rootStr optsIn now tm c).1,
         info.path.length ≤ effectiveMaxDepth (resolveOptions optsIn).maxDepth + 1) ∧
    (∀ (t : FSNode) (rootStr : String) (o : ScanOptionsIn) (m1 m2 : Nat),
       FSNode.wf t = true → 1 ≤ m1 → m1 ≤ m2 →
       ∀ r ∈ findNodeModules (some t) rootStr (resolveOptions { o with maxDepth := some m1 }),
         r ∈ findNodeModules (some t) rootStr (resolveOptions { o with maxDepth := some m2 })) ∧
    (∀ (root : FSNode) (rootStr : String) (o : ScanOptionsIn) (m1 m2 now tm : Nat)
       (c1 c2 : SizeCache), FSNode.wf root = true →
       goodCache root now tm c1 → goodCache root now tm c2 → 1 ≤ m1 → m1 ≤ m2 →
       ∀ info ∈ (scan (some root) rootStr { o with maxDepth := some m1 } now tm c1).1,
         info ∈ (scan (some root) rootStr { o with maxDepth := some m2 } now tm c2).1) ∧
    (∀ (excl : List String → Bool) (m : Nat) (t : FSNode) (p : List String) (depth : Nat),
       depth > effectiveMaxDepth m → walkPureNode excl m t p depth = []) ∧
    (resolveOptions {}).maxDepth = 10 := by
  have hpaths : ∀ (root : FSNode) (rootStr : String) (optsIn : ScanOptionsIn)
      (now tm : Nat) (c : SizeCache), FSNode.wf root = true → goodCache root now tm c →
      ∀ info ∈ (scan (some root) rootStr optsIn now tm c).1,
        info.path ∈ findNodeModules (some root) rootStr (resolveOptions optsIn) := by
    intro root rootStr optsIn now tm c hwf hg info hinfo
    rw [scan_pure root rootStr optsIn now tm c hwf hg] at hinfo
    obtain ⟨p, hp, hpure⟩ := List.mem_filterMap.mp hinfo
    rw [pureScanSingle_path hpure]
    exact hp
  refine ⟨?_, ?_, ?_, ?_, rfl⟩
  · intro root rootStr optsIn now tm c hwf hg info hinfo
    have hp := hpaths root rootStr optsIn now tm c hwf hg info hinfo
    rw [findNodeModules_pure root rootStr _ hwf] at hp
    have := walkPure_depth_bound _ _ root [] 0 info.path hp
    simpa [effectiveMaxDepth] using this
  · intro t rootStr o m1 m2 hwf hm1 hm12 r hr
    rw [findNodeModules_pure t rootStr _ hwf] at hr ⊢
    have hsame : (resolveOptions { o with maxDepth := some m2 }).includeHidden =
        (resolveOptions { o with maxDepth := some m1 }).includeHidden := rfl
    have hsame2 : (resolveOptions { o with maxDepth := some m2 }).excludePaths =
        (resolveOptions { o with maxDepth := some m1 }).excludePaths := rfl
    rw [hsame, hsame2]
    have hm1' : (resolveOptions { o with maxDepth := some m1 }).maxDepth = m1 := rfl
    have hm2' : (resolveOptions { o with maxDepth := some m2 }).maxDepth = m2 := rfl
    rw [hm1'] at hr
    rw [hm2']
    exact walkPure_mono _ m1 m2 hm1 hm12 t [] 0 r hr
  · intro root rootStr o m1 m2 now tm c1 c2 hwf hg1 hg2 hm1 hm12 info hinfo
    rw [scan_pure root rootStr _ now tm c1 hwf hg1] at hinfo
    rw [scan_pure root rootStr _ now tm c2 hwf hg2]
    obtain ⟨p, hp, hpure⟩ := List.mem_filterMap.mp hinfo
    refine List.mem_filterMap.mpr ⟨p, ?_, hpure⟩
    rw [findNodeModules_pure root rootStr _ hwf] at hp ⊢
    have hm1' : (resolveOptions { o with maxDepth := some m1 }).maxDepth = m1 := rfl
    have hm2' : (resolveOptions { o with maxDepth := some m2 }).maxDepth = m2 := rfl
    rw [hm1'] at hp
    rw [hm2']
    exact walkPure_mono _ m1 m2 hm1 hm12 root [] 0 p hp
  · intro excl m t p depth hd
    cases t <;> simp [walkPureNode, effectiveMaxDepth] at hd ⊢ <;> omega

/-- Witness for C3 amended at a concrete tree and bounds. -/
theorem scanner_depth_amended_witness :
    FSNode.wf (.dir 0 true true (.cons "a" (.dir 0 true true
      (.cons "node_modules" (.dir 5 true true .nil) .nil)) .nil)) = true ∧
    (∀ info ∈ (scan (some (.dir 0 true true (.cons "a" (.dir 0 true true
        (.cons "node_modules" (.dir 5 true true .nil) .nil)) .nil)))
        "/r" { maxDepth := some 1 } 0 60000 []).1,
      info.path.length ≤
        effectiveMaxDepth (resolveOptions { maxDepth := some 1 }).maxDepth + 1) ∧
    (∀ r ∈ findNodeModules (some (.dir 0 true true (.cons "a" (.dir 0 true true
        (.cons "node_modules" (.dir 5 true true .nil) .nil)) .nil)))
        "/r" (resolveOptions { ({} : ScanOptionsIn) with maxDepth := some 1 }),
      r ∈ findNodeModules (some (.dir 0 true true (.cons "a" (.dir 0 true true
        (.cons "node_modules" (.dir 5 true true .nil) .nil)) .nil)))
        "/r" (resolveOptions { ({} : ScanOptionsIn) with maxDepth := some 3 })) := by
  refine ⟨by decide, ?_, ?_⟩
  · exact scanner_depth_amended.1 _ "/r" { maxDepth := some 1 } 0 60000 [] (by decide)
      (by intro e he; simp at he)
  · exact scanner_depth_amended.2.1 _ "/r" {} 1 3 (by decide) (by decide) (by decide)

/-- Every emitted path extends the walk's start path. -/
theorem walkPure_results_extend (excl : List String → Bool) (m : Nat) (t : FSNode)
    (p : List String) (depth : Nat) :
    ∀ r ∈ walkPureNode excl m t p depth, pathPrefix p r := by
  intro r hr
  obtain ⟨mid, hmid, _⟩ := walkPure_shape excl m t p depth r hr
  exact ⟨mid ++ ["node_modules"], by rw [hmid]; simp⟩

theorem pathPrefix_snoc_cases {sub p : List String} {n : String}
    (h : pathPrefix sub (p ++ [n])) (hnp : ¬ pathPrefix sub p) : sub = p ++ [n] := by
  rcases h with ⟨r, hr⟩
  rcases r with _ | ⟨a, r2⟩
  · simpa using hr
  · exfalso
    apply hnp
    have hlen : sub.length + (a :: r2).length = p.length + 1 := by
      have := congrArg List.length hr
      simpa using this
    have hlen2 : sub.length ≤ p.length := by simp at hlen; omega
    refine ⟨p.drop sub.length, ?_⟩
    have htake : (sub ++ a :: r2).take sub.length = (p ++ [n]).take sub.length := by rw [hr]
    rw [List.take_append_of_le_length (le_refl sub.length),
        List.take_append_of_le_length hlen2] at htake
    simp only [List.take_length] at htake
    nth_rewrite 1 [htake]
    exact List.take_append_drop sub.length p

/-- Excluding one subtree path filters exactly the results below it: with a
second exclusion predicate that fires on the subtree path and agrees with
the first elsewhere, the walk returns the first walk's results with the
subtree's results removed and nothing else. -/
theorem walkPure_exclusion_filter (excl1 excl2 : List String → Bool) (m : Nat)
    (sub : List String) (hsub : excl2 sub = true) :
    ∀ t : FSNode, ∀ p depth, ¬ pathPrefix sub p →
      (∀ q ∈ entryPathsN t p, ¬ pathPrefix sub q → excl2 q = excl1 q) →
      walkPureNode excl2 m t p depth =
        (walkPureNode excl1 m t p depth).filter (fun r => ! decide (pathPrefix sub r)) := by
  have main : ∀ t : FSNode, (∀ p depth, ¬ pathPrefix sub p →
      (∀ q ∈ entryPathsN t p, ¬ pathPrefix sub q → excl2 q = excl1 q) →
      walkPureNode excl2 m t p depth =
        (walkPureNode excl1 m t p depth).filter (fun r => ! decide (pathPrefix sub r))) := by
    refine @FSNode.rec
      (fun t => ∀ p depth, ¬ pathPrefix sub p →
        (∀ q ∈ entryPathsN t p, ¬ pathPrefix sub q → excl2 q = excl1 q) →
        walkPureNode excl2 m t p depth =
          (walkPureNode excl1 m t p depth).filter (fun r => ! decide (pathPrefix sub r)))
      (fun cs => ∀ p depth, ¬ pathPrefix sub p →
        (∀ q ∈ entryPathsC cs p, ¬ pathPrefix sub q → excl2 q = excl1 q) →
        walkPureEntries excl2 m cs p depth =
          (walkPureEntries excl1 m cs p depth).filter (fun r => ! decide (pathPrefix sub r)))
      ?_ ?_ ?_ ?_ ?_
    · intro sz ok mf p depth _ _
      cases t : decide (depth > (if m = 0 then 10 else m)) <;> simp [walkPureNode]
    · intro mt ok rd cs ihcs p depth hnp hsame
      by_cases hd : depth > (if m = 0 then 10 else m)
      · simp [walkPureNode, hd]
      · by_cases hrd : rd = true
        · subst hrd
          simp only [walkPureNode, if_neg hd, if_true]
          exact ihcs p depth hnp (by simpa [entryPathsN] using hsame)
        · simp only [Bool.not_eq_true] at hrd
          subst hrd
          simp [walkPureNode, hd]
    · intro ts p depth _ _
      simp [walkPureNode]
    · intro p depth _ _
      simp [walkPureEntries]
    · intro n ch rest ihn ihr p depth hnp hsame
      have hsamerest : ∀ q ∈ entryPathsC rest p, ¬ pathPrefix sub q → excl2 q = excl1 q := by
        intro q hq
        exact hsame q (by simp [entryPathsC, hq])
      have hrest := ihr p depth hnp hsamerest
      simp only [walkPureEntries, List.filter_append]
      rw [hrest]
      congr 1
      cases ch with
      | file sz ok mf => simp
      | symlink ts => simp
      | dir mt ok rd cs2 =>
          simp only
          by_cases hpre : pathPrefix sub (p ++ [n])
          · have hfp : sub = p ++ [n] := pathPrefix_snoc_cases hpre hnp
            have hex2 : excl2 (p ++ [n]) = true := by rw [← hfp]; exact hsub
            rw [hex2]
            simp only [if_true]
            by_cases hex1 : excl1 (p ++ [n]) = true
            · simp [hex1]
            · simp only [hex1, Bool.false_eq_true, if_false]
              by_cases hmk : n = "node_modules"
              · rw [if_pos hmk]
                symm
                rw [List.filter_eq_nil_iff]
                intro r hr
                simp only [List.mem_singleton] at hr
                subst hr
                intro hcontra
                rw [← hfp] at hcontra
                simp [pathPrefix_refl] at hcontra
              · simp only [hmk, if_false]
                symm
                rw [List.filter_eq_nil_iff]
                intro r hr
                have hext := walkPure_results_extend excl1 m (.dir mt ok rd cs2) (p ++ [n])
                  (depth + 1) r hr
                intro hcontra
                have hsubr : pathPrefix sub r :=
                  pathPrefix_trans (by rw [hfp]; exact pathPrefix_refl _) hext
                simp [hsubr] at hcontra
          · have hagree : excl2 (p ++ [n]) = excl1 (p ++ [n]) :=
              hsame (p ++ [n]) (by simp [entryPathsC]) hpre
            by_cases hex1 : excl1 (p ++ [n]) = true
            · rw [hagree, hex1]
              simp [hex1]
            · have hex2 : excl2 (p ++ [n]) = false := by
                rw [hagree]
                simpa using hex1
              rw [hex2]
              simp only [Bool.false_eq_true, if_false]
              rw [hagree] at hex2
              rw [hex2]
              simp only [Bool.false_eq_true, if_false]
              by_cases hmk : n = "node_modules"
              · subst hmk
                rw [if_pos rfl]
                simp [List.filter, hpre]
              · simp only [hmk, if_false]
                exact ihn (p ++ [n]) (depth + 1) hpre (by
                  intro q hq
                  exact hsame q (by simp [entryPathsC, hq]))
  exact main

/-- C5 counterexample: the exclusion pattern "sub" matches the
subdirectory's path relative to the scan root (isMatch "sub" "sub" is
true), yet the scan does not exclude the install root under /r/sub,
because the walker hands the full joined path "/r/sub" to the glob test,
not the root-relative one. -/
theorem scanner_exclusion_relative_counterexample :
    Glob.isMatch "sub" "sub" = true ∧
    findNodeModules (some (.dir 0 true true (.cons "sub" (.dir 0 true true
        (.cons "node_modules" (.dir 5 true true .nil) .nil)) .nil))) "/r"
      (resolveOptions { excludePaths := some ["sub"] }) = [["sub", "node_modules"]] :=
  ⟨by decide, by decide⟩

/-- C5 amended: the exclusion check tests each candidate subdirectory's
full joined path (root string plus segments) against the exclusion globs;
given patterns that fire on a subdirectory (and on nothing outside that
subtree, compared to a baseline option set), the scan returns exactly the
baseline results with everything below that subdirectory removed — every
install root under it is excluded and no others. -/
theorem scanner_exclusion_full_path :
    (∀ (rootStr : String) (ihh : Bool) (pats : List String) (q : List String),
      shouldExclude rootStr ihh pats q =
        ((if ¬ ihh then hiddenPart (renderPathL rootStr q) else false)
          || pats.any (fun pat => Glob.isMatch ⟨renderPathL rootStr q⟩ pat))) ∧
    (∀ (t : FSNode) (rootStr : String) (opts1 opts2 : ScanOptions) (sub : List String),
      FSNode.wf t = true → sub ≠ [] →
      opts2.maxDepth = opts1.maxDepth →
      shouldExclude rootStr opts2.includeHidden opts2.excludePaths sub = true →
      (∀ q ∈ entryPathsN t [], ¬ pathPrefix sub q →
        shouldExclude rootStr opts2.includeHidden opts2.excludePaths q =
          shouldExclude rootStr opts1.includeHidden opts1.excludePaths q) →
      findNodeModules (some t) rootStr opts2 =
        (findNodeModules (some t) rootStr opts1).filter
          (fun r => ! decide (pathPrefix sub r))) := by
  constructor
  · intro rootStr ihh pats q
    rfl
  · intro t rootStr opts1 opts2 sub hwf hne hmd hsub hsame
    rw [findNodeModules_pure t rootStr opts2 hwf, findNodeModules_pure t rootStr opts1 hwf,
      hmd]
    have hnp : ¬ pathPrefix sub ([] : List String) := by
      intro h
      have := pathPrefix_length h
      simp at this
      exact hne (by simpa [List.length_eq_zero] using this)
    exact walkPure_exclusion_filter _ _ opts1.maxDepth sub hsub t [] 0 hnp hsame

/-- Witness for the amended C5: excluding the full path of /r/sub removes
exactly the install root below sub and keeps the one below other. -/
theorem scanner_exclusion_full_path_witness :
    findNodeModules (some (.dir 0 true true
        (.cons "sub" (.dir 0 true true (.cons "node_modules" (.dir 5 true true .nil) .nil))
        (.cons "other" (.dir 0 true true (.cons "node_modules" (.dir 5 true true .nil) .nil))
          .nil)))) "/r"
      (resolveOptions { excludePaths := some ["/r/sub", "/r/sub/**"] }) =
      (findNodeModules (some (.dir 0 true true
        (.cons "sub" (.dir 0 true true (.cons "node_modules" (.dir 5 true true .nil) .nil))
        (.cons "other" (.dir 0 true true (.cons "node_modules" (.dir 5 true true .nil) .nil))
          .nil)))) "/r" (resolveOptions {})).filter
        (fun r => ! decide (pathPrefix ["sub"] r)) ∧
    findNodeModules (some (.dir 0 true true
        (.cons "sub" (.dir 0 true true (.cons "node_modules" (.dir 5 true true .nil) .nil))
        (.cons "other" (.dir 0 true true (.cons "node_modules" (.dir 5 true true .nil) .nil))
          .nil)))) "/r"
      (resolveOptions { excludePaths := some ["/r/sub", "/r/sub/**"] }) =
      [["other", "node_modules"]] := by
  constructor
  · exact scanner_exclusion_full_path.2 _ "/r" (resolveOptions {})
      (resolveOptions { excludePaths := some ["/r/sub", "/r/sub/**"] }) ["sub"]
      (by decide) (by decide) rfl (by decide) (by decide)
  · decide

theorem toList_ofList : ∀ xs : List (String × FSNode), (FSChildren.ofList xs).toList = xs
  | [] => rfl
  | (n, c) :: rest => by simp [FSChildren.ofList, FSChildren.toList, toList_ofList rest]

theorem names_ofList : ∀ xs : List (String × FSNode),
    (FSChildren.ofList xs).names = xs.map Prod.fst
  | [] => rfl
  | (n, c) :: rest => by simp [FSChildren.ofList, FSChildren.names, names_ofList rest]

theorem wfAll_ofList : ∀ xs : List (String × FSNode),
    FSChildren.wfAll (FSChildren.ofList xs) = xs.all (fun x => FSNode.wf x.2)
  | [] => rfl
  | (n, c) :: rest => by
      simp [FSChildren.ofList, FSChildren.wfAll, wfAll_ofList rest]

theorem walkPureEntries_ofList_append (excl : List String → Bool) (m : Nat)
    (p : List String) (depth : Nat) :
    ∀ xs ys : List (String × FSNode),
      walkPureEntries excl m (FSChildren.ofList (xs ++ ys)) p depth =
        walkPureEntries excl m (FSChildren.ofList xs) p depth ++
          walkPureEntries excl m (FSChildren.ofList ys) p depth
  | [], ys => by simp [FSChildren.ofList, walkPureEntries]
  | (n, c) :: rest, ys => by
      have ih := walkPureEntries_ofList_append excl m p depth rest ys
      simp only [List.cons_append, FSChildren.ofList, walkPureEntries]
      simp only [List.append_eq] at ih ⊢
      rw [ih, List.append_assoc]

theorem walkPure_unreadable (excl : List String → Bool) (m : Nat) (mt : Nat) (ok : Bool)
    (cs : FSChildren) (p : List String) (depth : Nat) :
    walkPureNode excl m (.dir mt ok false cs) p depth = [] := by
  by_cases hd : depth > (if m = 0 then 10 else m) <;> simp [walkPureNode, hd]

/-- C7: a nonexistent root path yields an empty scan result (and an
untouched cache) rather than raising; and an unreadable directory among the
root's entries is skipped — the scan of a tree containing it equals the scan
of the tree without it, so install roots in readable parts are still
returned. -/
theorem scanner_error_tolerance :
    (∀ (rootStr : String) (optsIn : ScanOptionsIn) (now tm : Nat) (c : SizeCache),
      scan none rootStr optsIn now tm c = ([], c)) ∧
    (∀ (rootStr : String) (opts : ScanOptions) (l1 l2 : List (String × FSNode))
       (n : String) (mt mt2 : Nat) (ok ok2 : Bool) (cs2 : FSChildren),
      FSNode.wf (.dir mt ok true
        (FSChildren.ofList (l1 ++ (n, FSNode.dir mt2 ok2 false cs2) :: l2))) = true →
      n ≠ "node_modules" →
      findNodeModules (some (.dir mt ok true
        (FSChildren.ofList (l1 ++ (n, FSNode.dir mt2 ok2 false cs2) :: l2)))) rootStr opts =
      findNodeModules (some (.dir mt ok true (FSChildren.ofList (l1 ++ l2)))) rootStr opts) := by
  constructor
  · intro rootStr optsIn now tm c
    rfl
  · intro rootStr opts l1 l2 n mt mt2 ok ok2 cs2 hwf hmk
    have hwf2 : FSNode.wf (.dir mt ok true (FSChildren.ofList (l1 ++ l2))) = true := by
      simp only [FSNode.wf, Bool.and_eq_true, decide_eq_true_eq, names_ofList,
        wfAll_ofList] at hwf ⊢
      have hsub : (l1 ++ l2).Sublist (l1 ++ (n, FSNode.dir mt2 ok2 false cs2) :: l2) :=
        List.Sublist.append_left (List.sublist_cons_self _ _) l1
      constructor
      · exact (hwf.1.sublist (hsub.map Prod.fst))
      · rw [List.all_eq_true] at hwf ⊢
        intro x hx
        exact hwf.2 x (hsub.subset hx)
    rw [findNodeModules_pure _ rootStr opts hwf, findNodeModules_pure _ rootStr opts hwf2]
    by_cases hd : (0 : Nat) > (if opts.maxDepth = 0 then 10 else opts.maxDepth)
    · simp [walkPureNode, hd]
    · simp only [walkPureNode, if_neg hd, if_true]
      rw [walkPureEntries_ofList_append]
      have hmid : walkPureEntries (shouldExclude rootStr opts.includeHidden opts.excludePaths)
          opts.maxDepth (FSChildren.ofList ((n, FSNode.dir mt2 ok2 false cs2) :: l2)) [] 0 =
          walkPureEntries (shouldExclude rootStr opts.includeHidden opts.excludePaths)
            opts.maxDepth (FSChildren.ofList l2) [] 0 := by
        simp only [FSChildren.ofList, walkPureEntries]
        rw [walkPure_unreadable]
        by_cases hex : shouldExclude rootStr opts.includeHidden opts.excludePaths [n] = true
        · simp [hex]
        · simp [hex, hmk]
      rw [hmid, ← walkPureEntries_ofList_append]

/-- Witness for C7: a root whose middle entry is an unreadable directory
(hiding an install root) flanked by two readable projects; the scan returns
exactly the two flanking install roots, the same as without the unreadable
entry. -/
theorem scanner_error_tolerance_witness :
    scan none "/r" {} 0 60000 [] = ([], []) ∧
    findNodeModules (some (.dir 0 true true (FSChildren.ofList
      ([("p1", FSNode.dir 0 true true (.cons "node_modules" (.dir 0 true true .nil) .nil))] ++
        ("locked", FSNode.dir 0 true false
          (.cons "node_modules" (.dir 0 true true .nil) .nil)) ::
        [("p2", FSNode.dir 0 true true (.cons "node_modules" (.dir 0 true true .nil) .nil))]))))
      "/r" (resolveOptions {}) =
    findNodeModules (some (.dir 0 true true (FSChildren.ofList
      ([("p1", FSNode.dir 0 true true (.cons "node_modules" (.dir 0 true true .nil) .nil))] ++
        [("p2", FSNode.dir 0 true true (.cons "node_modules" (.dir 0 true true .nil) .nil))]))))
      "/r" (resolveOptions {}) ∧
    findNodeModules (some (.dir 0 true true (FSChildren.ofList
      ([("p1", FSNode.dir 0 true true (.cons "node_modules" (.dir 0 true true .nil) .nil))] ++
        ("locked", FSNode.dir 0 true false
          (.cons "node_modules" (.dir 0 true true .nil) .nil)) ::
        [("p2", FSNode.dir 0 true true (.cons "node_modules" (.dir 0 true true .nil) .nil))]))))
      "/r" (resolveOptions {}) = [["p1", "node_modules"], ["p2", "node_modules"]] := by
  refine ⟨rfl, ?_, by decide⟩
  exact scanner_error_tolerance.2 "/r" (resolveOptions {})
    [("p1", FSNode.dir 0 true true (.cons "node_modules" (.dir 0 true true .nil) .nil))]
    [("p2", FSNode.dir 0 true true (.cons "node_modules" (.dir 0 true true .nil) .nil))]
    "locked" 0 0 true true (.cons "node_modules" (.dir 0 true true .nil) .nil)
    (by decide) (by decide)

/-- C10: the scanner never consults the followSymlinks flag — scans that
differ only in it produce identical output and cache — and symlinked
entries are never traversed: pruning every symlink from the tree leaves
the walk (state included) unchanged in either mode. -/
theorem scanner_ignores_followSymlinks :
    (∀ (root : Option FSNode) (rootStr : String) (o : ScanOptionsIn)
       (b b' : Option Bool) (now tm : Nat) (c : SizeCache),
      scan root rootStr { o with followSymlinks := b } now tm c =
        scan root rootStr { o with followSymlinks := b' } now tm c) ∧
    (∀ (rootStr : String) (ihh : Bool) (pats : List String) (m : Nat) (t : FSNode)
       (p : List String) (depth : Nat) (st : WalkState),
      walkNode rootStr ihh pats m (pruneSymlinksN t) p depth st =
        walkNode rootStr ihh pats m t p depth st) := by
  constructor
  · intro root rootStr o b b' now tm c
    cases o
    rfl
  · intro rootStr ihh pats m
    have main : ∀ t : FSNode, (∀ p depth st,
        walkNode rootStr ihh pats m (pruneSymlinksN t) p depth st =
          walkNode rootStr ihh pats m t p depth st) := by
      refine @FSNode.rec
        (fun t => ∀ p depth st,
          walkNode rootStr ihh pats m (pruneSymlinksN t) p depth st =
            walkNode rootStr ihh pats m t p depth st)
        (fun cs => ∀ p depth st,
          walkEntries rootStr ihh pats m (pruneSymlinksC cs) p depth st =
            walkEntries rootStr ihh pats m cs p depth st)
        ?_ ?_ ?_ ?_ ?_
      · intro sz ok mf p depth st
        rfl
      · intro mt ok rd cs ihcs p depth st
        simp only [pruneSymlinksN, walkNode]
        by_cases hd : depth > (if m = 0 then 10 else m)
      
        · simp [hd]
        · simp only [if_neg hd]
          by_cases hv : p ∈ st.visited
          · simp [hv]
          · simp only [hv, if_false, ↓reduceIte]
            by_cases hrd : rd = true
            · subst hrd
              simp [ihcs]
            · simp only [Bool.not_eq_true] at hrd
              subst hrd
              simp
      · intro ts p depth st
        rfl
      · intro p depth st
        rfl
      · intro n ch rest ihn ihr p depth st
        cases ch with
        | file sz ok mf =>
            simp only [pruneSymlinksC, walkEntries, pruneSymlinksN]
            exact ihr p depth _
        | symlink ts =>
            simp only [pruneSymlinksC, walkEntries]
            exact ihr p depth st
        | dir mt ok rd cs2 =>
            simp only [pruneSymlinksC, walkEntries, pruneSymlinksN] at ihn ⊢
            rw [ihn]
            exact ihr p depth _
    exact fun t => main t


theorem jsDollarSubst_no_dollar (m pre post : List Char) :
    ∀ s : List Char, '$' ∉ s → jsDollarSubst m pre post s = s
  | [], _ => rfl
  | c :: rest, h => by
      have hc : c ≠ '$' := by
        rintro rfl
        exact h (List.mem_cons_self _ _)
      have hr : jsDollarSubst m pre post rest = rest :=
        jsDollarSubst_no_dollar m pre post rest (fun hh => h (List.mem_cons_of_mem _ hh))
      rw [jsDollarSubst.eq_def]
      split
      · rename_i heq
        simp at heq
      · rename_i heq
        injection heq with h1 h2
        exact absurd h1 hc
      · rename_i heq
        injection heq with h1 h2
        exact absurd h1 hc
      · rename_i heq
        injection heq with h1 h2
        exact absurd h1 hc
      · rename_i heq
        injection heq with h1 h2
        exact absurd h1 hc
      · rename_i heq
        injection heq with h1 h2
        subst h1 h2
        rw [hr]

theorem mem_listSplitOn_mem (sep : Char) :
    ∀ l x, x ∈ listSplitOn sep l → ∀ a ∈ x, a ∈ l
  | [], x => by
      intro hx a ha
      simp [listSplitOn] at hx
      subst hx
      simp at ha
  | c :: rest, x => by
      intro hx a ha
      simp only [listSplitOn] at hx
      by_cases hc : c = sep
      · rw [if_pos hc] at hx
        rcases List.mem_cons.1 hx with h | h
        · subst h; simp at ha
        · exact List.mem_cons_of_mem _ (mem_listSplitOn_mem sep rest x h a ha)
      · rw [if_neg hc] at hx
        cases hr : listSplitOn sep rest with
        | nil =>
            rw [hr] at hx
            simp at hx
            subst hx
            rcases List.mem_singleton.1 ha with rfl
            exact List.mem_cons_self _ _
        | cons hd tl =>
            rw [hr] at hx
            rcases List.mem_cons.1 hx with h | h
            · subst h
              rcases List.mem_cons.1 ha with rfl | h2
              · exact List.mem_cons_self _ _
              · exact List.mem_cons_of_mem _
                  (mem_listSplitOn_mem sep rest hd (hr ▸ List.mem_cons_self _ _) a h2)
            · exact List.mem_cons_of_mem _
                (mem_listSplitOn_mem sep rest x (hr ▸ List.mem_cons_of_mem _ h) a ha)

theorem drop_takeWhile_length (q : Char → Bool) :
    ∀ l : List Char, l.drop (l.takeWhile q).length = l.dropWhile q
  | [] => rfl
  | c :: rest => by
      by_cases hq : q c
      · simp [List.takeWhile_cons, List.dropWhile_cons, hq, drop_takeWhile_length q rest]
      · simp [List.takeWhile_cons, List.dropWhile_cons, hq]

theorem findBrace_decomp :
    ∀ p pre inner post, Glob.findBrace p = some (pre, inner, post) →
      p = pre ++ '{' :: (inner ++ '}' :: post) ∧ '}' ∉ inner
  | [], pre, inner, post => by
      intro h
      simp [Glob.findBrace] at h
  | c :: rest, pre, inner, post => by
      intro h
      by_cases hc : c = '{'
      · subst hc
        rw [Glob.findBrace, if_pos rfl] at h
        by_cases hcond : rest.takeWhile (· ≠ '}') ≠ [] ∧
            (rest.drop (rest.takeWhile (· ≠ '}')).length).head? = some '}'
        · rw [if_pos hcond] at h
          injection h with h
          injection h with h1 h23
          injection h23 with h2 h3
          subst h1 h2 h3
          constructor
          · have hdw : rest.drop (rest.takeWhile (· ≠ '}')).length =
                rest.dropWhile (· ≠ '}') := drop_takeWhile_length _ rest
            have hhead := hcond.2
            rw [hdw] at hhead ⊢
            have hsplit : rest.dropWhile (· ≠ '}') =
                '}' :: (rest.dropWhile (· ≠ '}')).tail := by
              cases hdd : rest.dropWhile (· ≠ '}') with
              | nil => rw [hdd] at hhead; simp at hhead
              | cons a t =>
                  rw [hdd] at hhead
                  simp at hhead
                  subst hhead
                  rfl
            rw [← hsplit, List.takeWhile_append_dropWhile]
            rfl
          · intro hmem
            have := List.mem_takeWhile_imp hmem
            simp at this
        · rw [if_neg hcond] at h
          rw [Option.map_eq_some'] at h
          obtain ⟨⟨x1, x2, x3⟩, hf, he⟩ := h
          injection he with h1 h23
          injection h23 with h2 h3
          subst h2 h3
          obtain ⟨hp, hni⟩ := findBrace_decomp rest x1 x2 x3 hf
          subst h1
          exact ⟨by rw [hp]; rfl, hni⟩
      · rw [Glob.findBrace, if_neg hc] at h
        rw [Option.map_eq_some'] at h
        obtain ⟨⟨x1, x2, x3⟩, hf, he⟩ := h
        injection he with h1 h23
        injection h23 with h2 h3
        subst h2 h3
        obtain ⟨hp, hni⟩ := findBrace_decomp rest x1 x2 x3 hf
        subst h1
        exact ⟨by rw [hp]; rfl, hni⟩

theorem rbraceCount_append (a b : List Char) :
    Glob.rbraceCount (a ++ b) = Glob.rbraceCount a + Glob.rbraceCount b := by
  simp [Glob.rbraceCount, List.filter_append]

theorem rbraceCount_eq_zero (l : List Char) (h : '}' ∉ l) : Glob.rbraceCount l = 0 := by
  simp only [Glob.rbraceCount, List.length_eq_zero, List.filter_eq_nil_iff]
  intro a ha
  simp only [decide_eq_true_eq]
  rintro rfl
  exact h ha

theorem rbraceCount_cons (c : Char) (l : List Char) :
    Glob.rbraceCount (c :: l) = (if c = '}' then 1 else 0) + Glob.rbraceCount l := by
  by_cases hc : c = '}'
  · simp [Glob.rbraceCount, List.filter_cons, hc]
    omega
  · simp [Glob.rbraceCount, List.filter_cons, hc]

theorem expandBracesF_no_brace : ∀ (fuel : Nat) (p : List Char),
    Glob.rbraceCount p < fuel → '$' ∉ p →
    ∀ q ∈ Glob.expandBracesF fuel p, Glob.findBrace q = none
  | 0, p => fun h _ _ _ => absurd h (Nat.not_lt_zero _)
  | fuel + 1, p => by
      intro hlt hd q hq
      rw [Glob.expandBracesF] at hq
      cases hb : Glob.findBrace p with
      | none =>
          simp only [hb] at hq
          rw [List.mem_singleton] at hq
          subst hq
          exact hb
      | some x =>
          obtain ⟨pre, inner, post⟩ := x
          simp only [hb, List.mem_flatMap] at hq
          obtain ⟨o, ho, hq⟩ := hq
          obtain ⟨hp, hni⟩ := findBrace_decomp p pre inner post hb
          have hdpre : '$' ∉ pre := fun h => hd (by rw [hp]; exact List.mem_append_left _ h)
          have hdinner : '$' ∉ inner := fun h => hd (by
            rw [hp]
            exact List.mem_append_right _ (List.mem_cons_of_mem _ (List.mem_append_left _ h)))
          have hdpost : '$' ∉ post := fun h => hd (by
            rw [hp]
            exact List.mem_append_right _ (List.mem_cons_of_mem _
              (List.mem_append_right _ (List.mem_cons_of_mem _ h))))
          have hdo : '$' ∉ o := fun h => hdinner (mem_listSplitOn_mem ',' inner o ho '$' h)
          rw [jsDollarSubst_no_dollar _ _ _ o hdo] at hq
          have hno : '}' ∉ o := fun h => hni (mem_listSplitOn_mem ',' inner o ho '}' h)
          have hzo : Glob.rbraceCount o = 0 := rbraceCount_eq_zero o hno
          have hzi : Glob.rbraceCount inner = 0 := rbraceCount_eq_zero inner hni
          have hdec : Glob.rbraceCount (pre ++ o ++ post) < Glob.rbraceCount p := by
            rw [hp, rbraceCount_append, rbraceCount_append, rbraceCount_append,
              rbraceCount_cons, rbraceCount_append, rbraceCount_cons, hzo, hzi]
            simp
          have hd2 : '$' ∉ pre ++ o ++ post := by
            intro h
            rcases List.mem_append.1 h with h | h
            · rcases List.mem_append.1 h with h | h
              · exact hdpre h
              · exact hdo h
            · exact hdpost h
          exact expandBracesF_no_brace fuel _ (by omega) hd2 q hq

/-- C4: the escape round-trip is broken.  escape("a+b") backslash-escapes
the plus, but patternToRegex has no placeholder for an escaped plus: its
backslash is rewritten to a forward slash, so the compiled pattern requires
a literal "a/+b" and isMatch("a+b", escape("a+b")) is false (same for ^ $
and |); escaped pipes can even match unrelated strings, as the regex
alternation survives ("zb" matches escape("a|b")).  The bracket example of
the spec does hold. -/
theorem glob_escape_roundtrip_bug :
    Glob.isMatch "a+b" (Glob.escape "a+b") = false ∧
    Glob.escape "a+b" = "a\\+b" ∧
    Glob.isMatch "a[1].js" (Glob.escape "a[1].js") = true ∧
    Glob.isMatch "a1.js" (Glob.escape "a[1].js") = false ∧
    Glob.isMatch "aX.js" (Glob.escape "a[1].js") = false ∧
    Glob.isMatch "zb" (Glob.escape "a|b") = true :=
  ⟨by decide, by decide, by decide, by decide, by decide, by decide⟩

/-- C9 counterexample: expand does not recurse until no brace group
remains — a numeric range match replaces only that first range, so a
pattern with two numeric ranges keeps the second one verbatim in every
output (findBrace still finds a group there). -/
theorem glob_expand_counterexample :
    Glob.expand "\x7b1..2\x7d\x7b1..2\x7d" = ["1\x7b1..2\x7d", "2\x7b1..2\x7d"] ∧
    Glob.findBrace "1\x7b1..2\x7d".toList ≠ none :=
  ⟨by decide, by decide⟩

/-- C9 amended: the two worked examples of the spec do hold (a single
comma group, a single numeric range and a single character range expand to
the expected lists), and for a pattern free of dollar characters that
contains no numeric or character range, comma brace groups are fully
expanded: no output of expand contains a brace group any more.  Only the
recursion promise for patterns with several ranges is wrong. -/
theorem glob_expand_amended :
    Glob.expand "file.\x7bjs,ts\x7d" = ["file.js", "file.ts"] ∧
    Glob.expand "file\x7b1..3\x7d.txt" = ["file1.txt", "file2.txt", "file3.txt"] ∧
    Glob.expand "file\x7ba..c\x7d.txt" = ["filea.txt", "fileb.txt", "filec.txt"] ∧
    (∀ p : String, '$' ∉ p.toList →
      Glob.findNumericRange p.toList = none →
      Glob.findCharRange p.toList = none →
      ∀ q ∈ Glob.expand p, Glob.findBrace q.toList = none) := by
  refine ⟨by decide, by decide, by decide, ?_⟩
  intro p hd hn hc q hq
  simp only [Glob.expand, hn, hc, List.mem_map] at hq
  obtain ⟨x, hx, rfl⟩ := hq
  exact expandBracesF_no_brace (Glob.rbraceCount p.toList + 1) p.toList
    (Nat.lt_succ_self _) hd x hx

/-- Witness for the amended C9: a dollar-free, range-free comma pattern;
its expansion contains the concrete output and that output is brace
free. -/
theorem glob_expand_amended_witness :
    Glob.findBrace "a.b".toList = none ∧ "a.b" ∈ Glob.expand "a.\x7bb,c\x7d" :=
  ⟨glob_expand_amended.2.2.2 "a.\x7bb,c\x7d" (by decide) (by decide) (by decide)
    "a.b" (by decide), by decide⟩

theorem mapLookup_update_self : ∀ (m : List (String × DupEntry)) (name v : String)
    (loc : List String) (sz : Nat),
    mapLookup (mapUpdate m name v loc sz) name =
      some (match mapLookup m name with
            | none => ⟨[v], [loc], [sz]⟩
            | some e => ⟨addVersion e.versions v, e.locations ++ [loc], e.sizes ++ [sz]⟩)
  | [], name, v, loc, sz => by simp [mapUpdate, mapLookup, List.find?]
  | (n, e) :: rest, name, v, loc, sz => by
      by_cases hn : n = name
      · subst hn
        simp [mapUpdate, mapLookup, List.find?]
      · have hb : (n == name) = false := by simp [hn]
        rw [mapUpdate, if_neg hn]
        simp only [mapLookup, List.find?, hb]
        have ih := mapLookup_update_self rest name v loc sz
        simp only [mapLookup] at ih
        exact ih

theorem mapLookup_update_other : ∀ (m : List (String × DupEntry))
    (name name' v : String) (loc : List String) (sz : Nat), name' ≠ name →
    mapLookup (mapUpdate m name v loc sz) name' = mapLookup m name'
  | [], name, name', v, loc, sz => by
      intro h
      have hb : (name == name') = false := beq_eq_false_iff_ne.2 (Ne.symm h)
      simp [mapUpdate, mapLookup, List.find?, hb]
  | (n, e) :: rest, name, name', v, loc, sz => by
      intro h
      by_cases hn : n = name
      · subst hn
        have hb : (n == name') = false := beq_eq_false_iff_ne.2 (Ne.symm h)
        simp [mapUpdate, mapLookup, List.find?, hb]
      · rw [mapUpdate, if_neg hn]
        simp only [mapLookup, List.find?]
        cases hb : (n == name') with
        | true => rfl
        | false =>
            have ih := mapLookup_update_other rest name name' v loc sz h
            simp only [mapLookup] at ih
            exact ih

theorem mapUpdate_locations (m : List (String × DupEntry)) (name v : String)
    (loc : List String) (sz : Nat) :
    ((mapLookup (mapUpdate m name v loc sz) name).map DupEntry.locations).getD [] =
      ((mapLookup m name).map DupEntry.locations).getD [] ++ [loc] := by
  rw [mapLookup_update_self]
  cases h : mapLookup m name <;> simp

theorem mapUpdate_sizes (m : List (String × DupEntry)) (name v : String)
    (loc : List String) (sz : Nat) :
    ((mapLookup (mapUpdate m name v loc sz) name).map DupEntry.sizes).getD [] =
      ((mapLookup m name).map DupEntry.sizes).getD [] ++ [sz] := by
  rw [mapLookup_update_self]
  cases h : mapLookup m name <;> simp

theorem foldPkgs_observations (name : String) (proj : List String) :
    ∀ (ps : List PackageInfo) (m : List (String × DupEntry)),
    (((mapLookup (ps.foldl (fun m2 pkg =>
          mapUpdate m2 pkg.name pkg.version proj pkg.size) m) name).map
        DupEntry.locations).getD [] =
      ((mapLookup m name).map DupEntry.locations).getD [] ++
        (ps.filter (fun pkg => pkg.name = name)).map (fun _ => proj)) ∧
    (((mapLookup (ps.foldl (fun m2 pkg =>
          mapUpdate m2 pkg.name pkg.version proj pkg.size) m) name).map
        DupEntry.sizes).getD [] =
      ((mapLookup m name).map DupEntry.sizes).getD [] ++
        (ps.filter (fun pkg => pkg.name = name)).map (fun pkg => pkg.size))
  | [], m => by simp
  | pkg :: rest, m => by
      obtain ⟨ih1, ih2⟩ := foldPkgs_observations name proj rest
        (mapUpdate m pkg.name pkg.version proj pkg.size)
      by_cases hpk : pkg.name = name
      · constructor
        · rw [List.foldl_cons, ih1]
          rw [hpk, mapUpdate_locations]
          simp [List.filter_cons, hpk, List.append_assoc]
        · rw [List.foldl_cons, ih2]
          rw [hpk, mapUpdate_sizes]
          simp [List.filter_cons, hpk, List.append_assoc]
      · have hne : name ≠ pkg.name := fun hh => hpk hh.symm
        constructor
        · rw [List.foldl_cons, ih1, mapLookup_update_other m pkg.name name
            pkg.version proj pkg.size hne]
          simp [List.filter_cons, hpk]
        · rw [List.foldl_cons, ih2, mapLookup_update_other m pkg.name name
            pkg.version proj pkg.size hne]
          simp [List.filter_cons, hpk]

theorem buildMap_observations (name : String) : ∀ (rs : List NodeModulesInfo)
    (m : List (String × DupEntry)),
    (((mapLookup (rs.foldl (fun m r => r.packages.foldl (fun m2 pkg =>
          mapUpdate m2 pkg.name pkg.version r.projectPath pkg.size) m) m) name).map
        DupEntry.locations).getD [] =
      ((mapLookup m name).map DupEntry.locations).getD [] ++
        (observations name rs).map Prod.fst) ∧
    (((mapLookup (rs.foldl (fun m r => r.packages.foldl (fun m2 pkg =>
          mapUpdate m2 pkg.name pkg.version r.projectPath pkg.size) m) m) name).map
        DupEntry.sizes).getD [] =
      ((mapLookup m name).map DupEntry.sizes).getD [] ++
        (observations name rs).map Prod.snd)
  | [], m => by simp [observations]
  | r :: rest, m => by
      obtain ⟨ih1, ih2⟩ := buildMap_observations name rest
        (r.packages.foldl (fun m2 pkg =>
          mapUpdate m2 pkg.name pkg.version r.projectPath pkg.size) m)
      obtain ⟨hp1, hp2⟩ := foldPkgs_observations name r.projectPath r.packages m
      constructor
      · rw [List.foldl_cons, ih1, hp1]
        simp [observations, List.map_map, List.append_assoc, Function.comp_def,
          List.map_const]
      · rw [List.foldl_cons, ih2, hp2]
        simp [observations, List.map_map, List.append_assoc, Function.comp_def,
          List.map_const]

theorem mapLookup_mem (m : List (String × DupEntry)) (name : String) (e : DupEntry)
    (h : mapLookup m name = some e) : (name, e) ∈ m := by
  simp only [mapLookup, Option.map_eq_some'] at h
  obtain ⟨x, hf, he⟩ := h
  have hx1 : x.1 = name := by simpa using List.find?_some hf
  have hmem := List.mem_of_find?_eq_some hf
  cases x with
  | mk x1 x2 =>
      simp only at hx1 he
      subst hx1 he
      exact hmem

theorem castSum_map_snd : ∀ l : List (List String × Nat),
    ((l.map Prod.snd).map (fun s : Nat => (s : ℚ))).sum = (l.map (fun o => ((o.2 : ℚ)))).sum
  | [] => rfl
  | x :: rest => by
      simp only [List.map_cons, List.sum_cons, castSum_map_snd rest]

theorem buildMap_locations (name : String) (rs : List NodeModulesInfo) :
    ((mapLookup (buildMap rs) name).map DupEntry.locations).getD [] =
      (observations name rs).map Prod.fst := by
  have h := (buildMap_observations name rs []).1
  simpa [mapLookup, buildMap] using h

theorem buildMap_sizes (name : String) (rs : List NodeModulesInfo) :
    ((mapLookup (buildMap rs) name).map DupEntry.sizes).getD [] =
      (observations name rs).map Prod.snd := by
  have h := (buildMap_observations name rs []).2
  simpa [mapLookup, buildMap] using h

/-- C1: analyzeDuplicates groups the package observations by name; any
name observed more than once (in particular one observed from two owning
projects) yields a duplicate group whose totalSize is the sum of the
observed sizes, whose potentialSavings subtracts one average copy
(totalSize divided by the observation count) and whose locations are the
owning project paths in observation order; the report savings is the sum
of the per-group savings, packages is sorted descending by per-group
savings and totalDuplicates counts the groups.  The lodash example of the
spec comes out exactly as promised. -/
theorem analyzer_duplicates_claim :
    (∀ (rs : List NodeModulesInfo) (name : String),
      1 < (observations name rs).length →
      ∃ d ∈ (analyzeDuplicates rs).packages,
        d.name = name ∧
        d.locations = (observations name rs).map Prod.fst ∧
        d.totalSize = ((observations name rs).map (fun o => (o.2 : ℚ))).sum ∧
        d.potentialSavings =
          d.totalSize - d.totalSize / ((observations name rs).length : ℚ)) ∧
    (∀ rs : List NodeModulesInfo,
      (analyzeDuplicates rs).potentialSavings =
        ((analyzeDuplicates rs).packages.map (fun d => d.potentialSavings)).sum ∧
      (analyzeDuplicates rs).packages.Sorted savingsGE ∧
      (analyzeDuplicates rs).totalDuplicates = (analyzeDuplicates rs).packages.length) ∧
    (analyzeDuplicates [descA, descB]).totalDuplicates = 1 ∧
    (analyzeDuplicates [descA, descB]).packages =
      [⟨"lodash", ["4.17.21"], [["a"], ["b"]], 2000000, 1000000⟩] ∧
    (analyzeDuplicates [descA, descB]).potentialSavings = 1000000 ∧
    0 < (analyzeDuplicates [descA, descB]).potentialSavings := by
  refine ⟨?_, ?_, by decide, ?_, ?_, ?_⟩
  · intro rs name hgt
    have hl := buildMap_locations name rs
    have hs := buildMap_sizes name rs
    cases hfind : mapLookup (buildMap rs) name with
    | none =>
        rw [hfind] at hl
        simp only [Option.map_none', Option.getD_none] at hl
        have h0 : 0 = (observations name rs).length := by
          have := congrArg List.length hl
          simpa using this
        omega
    | some e =>
        rw [hfind] at hl hs
        simp only [Option.map_some', Option.getD_some] at hl hs
        have hmem := mapLookup_mem _ _ _ hfind
        have hlen : e.locations.length = (observations name rs).length := by
          rw [hl]
          simp
        have hslen : e.sizes.length = (observations name rs).length := by
          rw [hs]
          simp
        refine ⟨dupOf name e, ?_, rfl, by simpa [dupOf] using hl, ?_, ?_⟩
        · simp only [analyzeDuplicates]
          have hd : dupOf name e ∈ (List.filter (fun x => decide (1 < x.2.locations.length))
              (buildMap rs)).map (fun x => dupOf x.1 x.2) := by
            refine List.mem_map.2 ⟨(name, e), List.mem_filter.2 ⟨hmem, ?_⟩, rfl⟩
            simp only [decide_eq_true_eq]
            omega
          exact (List.perm_insertionSort savingsGE _).symm.subset hd
        · show (dupOf name e).totalSize = _
          simp only [dupOf]
          rw [hs]
          exact castSum_map_snd (observations name rs)
        · simp only [dupOf]
          rw [hslen]
  · intro rs
    refine ⟨?_, ?_, ?_⟩
    · simp only [analyzeDuplicates]
      exact (((List.perm_insertionSort savingsGE _).map _).sum_eq).symm
    · simp only [analyzeDuplicates]
      exact List.sorted_insertionSort savingsGE _
    · simp only [analyzeDuplicates]
      exact ((List.perm_insertionSort savingsGE _).length_eq).symm
  · simp [analyzeDuplicates, buildMap, mapUpdate, dupOf, descA, descB, addVersion,
      List.insertionSort, List.orderedInsert]
    norm_num
  · simp [analyzeDuplicates, buildMap, mapUpdate, dupOf, descA, descB, addVersion]
  · have h : (analyzeDuplicates [descA, descB]).potentialSavings = 1000000 := by
      simp [analyzeDuplicates, buildMap, mapUpdate, dupOf, descA, descB, addVersion]
    rw [h]
    norm_num

/-- Witness for C1: the lodash example instantiates the grouping property
at a concrete input. -/
theorem analyzer_duplicates_claim_witness :
    1 < (observations "lodash" [descA, descB]).length ∧
    ∃ d ∈ (analyzeDuplicates [descA, descB]).packages,
      d.name = "lodash" ∧
      d.locations = (observations "lodash" [descA, descB]).map Prod.fst ∧
      d.totalSize = ((observations "lodash" [descA, descB]).map (fun o => (o.2 : ℚ))).sum ∧
      d.potentialSavings =
        d.totalSize - d.totalSize / ((observations "lodash" [descA, descB]).length : ℚ) :=
  ⟨by decide, analyzer_duplicates_claim.1 [descA, descB] "lodash" (by decide)⟩
